import Mathlib

/-!
Verification of the eniris API driver's telemetry pipeline against its
specification.  The Python sources are shallowly embedded: dictionaries
(`dict`, `OrderedDict`) become insertion-ordered association lists, Python
strings become Lean strings compared by code point, `datetime` values become
integer timestamps (nanoseconds or seconds, as each component uses them),
Python floats that are only ever printed are carried by their printed
representation, and fallible attribute accesses return `Option`.
-/

set_option maxHeartbeats 1000000

namespace Eniris

/-! ## Python string primitives -/

/-- Python `s.replace(needle, repl)` for a single-character needle: every
occurrence of the character is replaced by `repl`. -/
def pyReplaceChar (needle : Char) (repl : List Char) : List Char → List Char
  | [] => []
  | c :: cs =>
    if c = needle then repl ++ pyReplaceChar needle repl cs
    else c :: pyReplaceChar needle repl cs

/-- String wrapper for `pyReplaceChar`. -/
def pyReplace (s : String) (needle : Char) (repl : String) : String :=
  ⟨pyReplaceChar needle repl.data s.data⟩

/-- Python `sep.join(parts)`. -/
def pyJoin (sep : String) : List String → String
  | [] => ""
  | [x] => x
  | x :: y :: xs => x ++ sep ++ pyJoin sep (y :: xs)

/-- Python `<` on strings: lexicographic comparison of code points. -/
def pyLtChars : List Char → List Char → Bool
  | [], [] => false
  | [], _ :: _ => true
  | _ :: _, [] => false
  | a :: as, b :: bs =>
    if a.toNat < b.toNat then true
    else if b.toNat < a.toNat then false
    else pyLtChars as bs

/-- Python `a < b` on strings. -/
def pyStrLt (a b : String) : Bool :=
  pyLtChars a.data b.data

/-- Python `a <= b` on strings, the order `list.sort` sorts by. -/
def pyStrLe (a b : String) : Prop :=
  pyStrLt b a = false

instance : DecidableRel pyStrLe := fun a b => by
  unfold pyStrLe
  infer_instance

theorem pyLtChars_asymm : ∀ {a b : List Char},
    pyLtChars a b = true → pyLtChars b a = false := by
  intro a
  induction a with
  | nil => intro b h; cases b <;> simp_all [pyLtChars]
  | cons x xs ih =>
    intro b h
    cases b with
    | nil => simp [pyLtChars] at h
    | cons y ys =>
      simp only [pyLtChars] at h ⊢
      by_cases hxy : x.toNat < y.toNat
      · have : ¬ y.toNat < x.toNat := by omega
        simp [hxy, this]
      · by_cases hyx : y.toNat < x.toNat
        · simp [hxy, hyx] at h
        · simp only [hxy, hyx, if_false] at h ⊢
          exact ih h

theorem charToNat_injective {a b : Char} (h : a.toNat = b.toNat) : a = b :=
  Char.ext (UInt32.ext h)

theorem pyLtChars_conn : ∀ {a b : List Char},
    pyLtChars a b = false → pyLtChars b a = false → a = b := by
  intro a
  induction a with
  | nil => intro b h _; cases b <;> simp_all [pyLtChars]
  | cons x xs ih =>
    intro b h h2
    cases b with
    | nil => simp [pyLtChars] at h2
    | cons y ys =>
      simp only [pyLtChars] at h h2
      by_cases hxy : x.toNat < y.toNat
      · simp [hxy] at h
      · by_cases hyx : y.toNat < x.toNat
        · simp [hxy, hyx] at h2
        · simp only [hxy, hyx, if_false] at h h2
          have hx : x = y := charToNat_injective (by omega)
          rw [hx, ih h h2]

theorem pyLtChars_trans : ∀ {a b c : List Char},
    pyLtChars a b = true → pyLtChars b c = true → pyLtChars a c = true := by
  intro a
  induction a with
  | nil =>
    intro b c h h2
    cases b with
    | nil => simp [pyLtChars] at h
    | cons y ys =>
      cases c with
      | nil => simp [pyLtChars] at h2
      | cons z zs => simp [pyLtChars]
  | cons x xs ih =>
    intro b c h h2
    cases b with
    | nil => simp [pyLtChars] at h
    | cons y ys =>
      cases c with
      | nil => simp [pyLtChars] at h2
      | cons z zs =>
        simp only [pyLtChars] at h h2 ⊢
        by_cases hxy : x.toNat < y.toNat
        · by_cases hyz : y.toNat < z.toNat
          · have : x.toNat < z.toNat := by omega
            simp [this]
          · by_cases hzy : z.toNat < y.toNat
            · simp [hyz, hzy] at h2
            · have : x.toNat < z.toNat := by omega
              simp [this]
        · by_cases hyx : y.toNat < x.toNat
          · simp [hxy, hyx] at h
          · have hx : x.toNat = y.toNat := by omega
            by_cases hyz : y.toNat < z.toNat
            · have : x.toNat < z.toNat := by omega
              simp [this]
            · by_cases hzy : z.toNat < y.toNat
              · simp [hyz, hzy] at h2
              · simp only [hxy, hyx, if_false] at h
                simp only [hyz, hzy, if_false] at h2
                have h1 : ¬ x.toNat < z.toNat := by omega
                have h3 : ¬ z.toNat < x.toNat := by omega
                simp only [h1, h3, if_false]
                exact ih h h2

theorem string_eq_of_data_eq {a b : String} (h : a.data = b.data) : a = b :=
  congrArg String.mk h

instance : IsTotal String pyStrLe := by
  constructor
  intro a b
  unfold pyStrLe pyStrLt
  by_cases h : pyLtChars b.data a.data = true
  · right
    exact pyLtChars_asymm h
  · left
    simpa using h

instance : IsTrans String pyStrLe := by
  constructor
  intro a b c hab hbc
  unfold pyStrLe pyStrLt at hab hbc ⊢
  by_cases hca : pyLtChars c.data a.data = true
  · by_cases hbcb : pyLtChars b.data c.data = true
    · have := pyLtChars_trans hbcb hca
      rw [this] at hab
      exact absurd hab (by simp)
    · have hb : b.data = c.data := pyLtChars_conn (by simpa using hbcb) hbc
      rw [← hb] at hca
      rw [hca] at hab
      exact absurd hab (by simp)
  · simpa using hca

instance : IsAntisymm String pyStrLe := by
  constructor
  intro a b hab hba
  unfold pyStrLe pyStrLt at hab hba
  exact string_eq_of_data_eq (pyLtChars_conn hba hab)

/-- Python `sorted(strings)` / `list.sort()`: a sort by `pyStrLe`.  Since the
order is total and antisymmetric, the sorted output is determined by the
multiset of inputs, so any correct implementation agrees with this one. -/
def pySorted (l : List String) : List String :=
  List.insertionSort pyStrLe l

theorem pySorted_perm (l : List String) : List.Perm (pySorted l) l :=
  List.perm_insertionSort pyStrLe l

theorem pySorted_sorted (l : List String) : List.Sorted pyStrLe (pySorted l) :=
  List.sorted_insertionSort pyStrLe l

theorem pySorted_congr_perm {l₁ l₂ : List String} (h : List.Perm l₁ l₂) :
    pySorted l₁ = pySorted l₂ := by
  refine List.eq_of_perm_of_sorted ?_ (pySorted_sorted l₁) (pySorted_sorted l₂)
  exact ((pySorted_perm l₁).trans h).trans (pySorted_perm l₂).symm

/-! ## Insertion-ordered dictionaries

Python `dict` and `OrderedDict` are modelled as association lists in insertion
order: assignment to an existing key updates the value in place, assignment
to a fresh key appends at the end. -/

section PyDict

variable {K V : Type} [DecidableEq K]

/-- Dictionary lookup, `d.get(k)` / `d[k]`. -/
def dictGet : List (K × V) → K → Option V
  | [], _ => none
  | (k, v) :: rest, key => if k = key then some v else dictGet rest key

/-- Dictionary assignment `d[k] = v`. -/
def dictSet : List (K × V) → K → V → List (K × V)
  | [], key, val => [(key, val)]
  | (k, v) :: rest, key, val =>
    if k = key then (k, val) :: rest else (k, v) :: dictSet rest key val

/-- Dictionary deletion `del d[k]` (used only where the key is present). -/
def dictDelete : List (K × V) → K → List (K × V)
  | [], _ => []
  | (k, v) :: rest, key => if k = key then rest else (k, v) :: dictDelete rest key

/-- Python `k in d`. -/
def dictMember (l : List (K × V)) (k : K) : Bool :=
  (dictGet l k).isSome

/-- Python `OrderedDict.move_to_end(k)` for a present key. -/
def moveToEnd (l : List (K × V)) (k : K) : List (K × V) :=
  match dictGet l k with
  | some v => dictDelete l k ++ [(k, v)]
  | none => l

theorem dictGet_dictSet_self (l : List (K × V)) (k : K) (v : V) :
    dictGet (dictSet l k v) k = some v := by
  induction l with
  | nil => simp [dictGet, dictSet]
  | cons hd tl ih =>
    obtain ⟨k0, v0⟩ := hd
    by_cases h : k0 = k
    · simp [dictGet, dictSet, h]
    · simp [dictGet, dictSet, h, ih]

theorem dictGet_dictSet_ne (l : List (K × V)) {k k2 : K} (v : V) (h : k2 ≠ k) :
    dictGet (dictSet l k v) k2 = dictGet l k2 := by
  induction l with
  | nil => simp [dictGet, dictSet, Ne.symm h]
  | cons hd tl ih =>
    obtain ⟨k0, v0⟩ := hd
    by_cases h0 : k0 = k
    · subst h0
      simp [dictGet, dictSet, Ne.symm h]
    · simp [dictGet, dictSet, h0, ih]

theorem dictSet_same {l : List (K × V)} {k : K} {v : V}
    (h : dictGet l k = some v) : dictSet l k v = l := by
  induction l with
  | nil => simp [dictGet] at h
  | cons hd tl ih =>
    obtain ⟨k0, v0⟩ := hd
    by_cases h0 : k0 = k
    · subst h0
      simp only [dictGet, if_true, eq_self_iff_true, Option.some.injEq] at h
      simp [dictSet, h]
    · simp only [dictGet, if_neg h0] at h
      simp [dictSet, h0, ih h]

theorem length_dictSet_present {l : List (K × V)} {k : K} (v : V)
    (h : dictMember l k = true) : (dictSet l k v).length = l.length := by
  induction l with
  | nil => simp [dictMember, dictGet] at h
  | cons hd tl ih =>
    obtain ⟨k0, v0⟩ := hd
    by_cases h0 : k0 = k
    · simp [dictSet, h0]
    · simp only [dictMember, dictGet, if_neg h0] at h
      simp [dictSet, h0, ih h]

theorem length_dictSet_absent {l : List (K × V)} {k : K} (v : V)
    (h : dictMember l k = false) : (dictSet l k v).length = l.length + 1 := by
  induction l with
  | nil => simp [dictSet]
  | cons hd tl ih =>
    obtain ⟨k0, v0⟩ := hd
    by_cases h0 : k0 = k
    · simp [dictMember, dictGet, h0] at h
    · simp only [dictMember, dictGet, if_neg h0] at h
      simp [dictSet, h0, ih h]

theorem length_dictSet_le (l : List (K × V)) (k : K) (v : V) :
    (dictSet l k v).length ≤ l.length + 1 := by
  by_cases h : dictMember l k = true
  · rw [length_dictSet_present v h]; omega
  · rw [length_dictSet_absent v (by simpa using h)]

theorem length_dictDelete_present {l : List (K × V)} {k : K}
    (h : dictMember l k = true) : (dictDelete l k).length + 1 = l.length := by
  induction l with
  | nil => simp [dictMember, dictGet] at h
  | cons hd tl ih =>
    obtain ⟨k0, v0⟩ := hd
    by_cases h0 : k0 = k
    · simp [dictDelete, h0]
    · simp only [dictMember, dictGet, if_neg h0] at h
      simp only [dictDelete, if_neg h0, List.length_cons]
      have := ih h
      omega

theorem length_dictDelete_le (l : List (K × V)) (k : K) :
    (dictDelete l k).length ≤ l.length := by
  induction l with
  | nil => simp [dictDelete]
  | cons hd tl ih =>
    obtain ⟨k0, v0⟩ := hd
    by_cases h0 : k0 = k
    · simp [dictDelete, h0]
    · simp only [dictDelete, if_neg h0, List.length_cons]
      omega

theorem dictGet_dictDelete_ne (l : List (K × V)) {k k2 : K} (h : k2 ≠ k) :
    dictGet (dictDelete l k) k2 = dictGet l k2 := by
  induction l with
  | nil => simp [dictDelete]
  | cons hd tl ih =>
    obtain ⟨k0, v0⟩ := hd
    by_cases h0 : k0 = k
    · subst h0
      simp [dictDelete, dictGet, Ne.symm h]
    · simp [dictDelete, dictGet, h0, ih]

theorem length_moveToEnd (l : List (K × V)) (k : K) :
    (moveToEnd l k).length = l.length := by
  unfold moveToEnd
  cases h : dictGet l k with
  | none => rfl
  | some v =>
    have : dictMember l k = true := by simp [dictMember, h]
    have := length_dictDelete_present this
    simp only [List.length_append, List.length_cons, List.length_nil]
    omega

/-- Keys of an association list are pairwise distinct.  Lists maintained only
through `dictSet`, `dictDelete` and `moveToEnd` always satisfy this, matching
the fact that a Python dictionary cannot hold duplicate keys. -/
def nodupKeys (l : List (K × V)) : Prop :=
  (l.map Prod.fst).Nodup

theorem dictGet_eq_none_iff (l : List (K × V)) (k : K) :
    dictGet l k = none ↔ k ∉ l.map Prod.fst := by
  induction l with
  | nil => simp [dictGet]
  | cons hd tl ih =>
    obtain ⟨k0, v0⟩ := hd
    by_cases h0 : k0 = k
    · simp [dictGet, h0]
    · simp [dictGet, h0, ih, Ne.symm h0]

theorem dictDelete_sublist (l : List (K × V)) (k : K) :
    (dictDelete l k).Sublist l := by
  induction l with
  | nil => simp [dictDelete]
  | cons hd tl ih =>
    obtain ⟨k0, v0⟩ := hd
    by_cases h0 : k0 = k
    · simp [dictDelete, h0]
    · simpa [dictDelete, h0] using ih.cons₂ (k0, v0)

theorem nodupKeys_dictDelete {l : List (K × V)} (k : K) (h : nodupKeys l) :
    nodupKeys (dictDelete l k) :=
  List.Nodup.sublist (List.Sublist.map Prod.fst (dictDelete_sublist l k)) h

theorem dictGet_dictDelete_self {l : List (K × V)} (h : nodupKeys l) (k : K) :
    dictGet (dictDelete l k) k = none := by
  induction l with
  | nil => simp [dictDelete, dictGet]
  | cons hd tl ih =>
    obtain ⟨k0, v0⟩ := hd
    simp only [nodupKeys, List.map_cons, List.nodup_cons] at h
    by_cases h0 : k0 = k
    · subst h0
      simp only [dictDelete, if_pos rfl]
      exact (dictGet_eq_none_iff tl k0).mpr h.1
    · simp only [dictDelete, if_neg h0, dictGet, if_neg h0]
      exact ih h.2

theorem keys_dictSet_present {l : List (K × V)} {k : K} (v : V)
    (h : dictMember l k = true) :
    (dictSet l k v).map Prod.fst = l.map Prod.fst := by
  induction l with
  | nil => simp [dictMember, dictGet] at h
  | cons hd tl ih =>
    obtain ⟨k0, v0⟩ := hd
    by_cases h0 : k0 = k
    · simp [dictSet, h0]
    · simp only [dictMember, dictGet, if_neg h0] at h
      simp [dictSet, h0, ih h]

theorem keys_dictSet_absent {l : List (K × V)} {k : K} (v : V)
    (h : dictMember l k = false) :
    (dictSet l k v).map Prod.fst = l.map Prod.fst ++ [k] := by
  induction l with
  | nil => simp [dictSet]
  | cons hd tl ih =>
    obtain ⟨k0, v0⟩ := hd
    by_cases h0 : k0 = k
    · simp [dictMember, dictGet, h0] at h
    · simp only [dictMember, dictGet, if_neg h0] at h
      simp [dictSet, h0, ih h]

theorem nodupKeys_dictSet {l : List (K × V)} (k : K) (v : V) (h : nodupKeys l) :
    nodupKeys (dictSet l k v) := by
  by_cases hm : dictMember l k = true
  · unfold nodupKeys
    rw [keys_dictSet_present v hm]
    exact h
  · have hg : dictGet l k = none := by
      cases hg : dictGet l k with
      | none => rfl
      | some v2 => simp [dictMember, hg] at hm
    have hk : k ∉ l.map Prod.fst := (dictGet_eq_none_iff l k).mp hg
    unfold nodupKeys at h ⊢
    rw [keys_dictSet_absent v (by simp [dictMember, hg])]
    simp [List.nodup_append, h, hk]

theorem nodupKeys_moveToEnd {l : List (K × V)} (k : K) (h : nodupKeys l) :
    nodupKeys (moveToEnd l k) := by
  unfold moveToEnd
  split
  next v hg =>
    have hd := nodupKeys_dictDelete k h
    have hk : k ∉ (dictDelete l k).map Prod.fst := by
      rw [← dictGet_eq_none_iff]
      exact dictGet_dictDelete_self h k
    unfold nodupKeys at hd ⊢
    simp [List.nodup_append, hd, hk]
  next hg => exact h

theorem dictGet_append (l1 l2 : List (K × V)) (k : K) :
    dictGet (l1 ++ l2) k = (dictGet l1 k).elim (dictGet l2 k) some := by
  induction l1 with
  | nil => simp [dictGet]
  | cons hd tl ih =>
    obtain ⟨k0, v0⟩ := hd
    by_cases h0 : k0 = k
    · simp [dictGet, h0]
    · simp [dictGet, h0, ih]

theorem dictGet_moveToEnd_self {l : List (K × V)} (h : nodupKeys l) (k : K) :
    dictGet (moveToEnd l k) k = dictGet l k := by
  unfold moveToEnd
  split
  next v hg =>
    rw [dictGet_append, dictGet_dictDelete_self h k, hg]
    simp [dictGet]
  next hg => rfl

theorem dictGet_moveToEnd_ne (l : List (K × V)) {k k2 : K} (h : k2 ≠ k) :
    dictGet (moveToEnd l k) k2 = dictGet l k2 := by
  unfold moveToEnd
  split
  next v hg =>
    rw [dictGet_append, dictGet_dictDelete_ne l h]
    cases hg2 : dictGet l k2 with
    | none => simp [dictGet, Ne.symm h]
    | some v2 => simp
  next hg => rfl

end PyDict

/-! ## Line-protocol encoder (`eniris/point/point.py`) -/

/-- Field values of a point: `bool`, `int`, `float` or `str`.  A Python float
is carried by its printed decimal representation, which is all the encoder
ever consumes of it. -/
inductive FieldValue where
  | bool (b : Bool)
  | int (n : Int)
  | float (printed : String)
  | str (s : String)
deriving DecidableEq, Repr

namespace TagSet

/-- TagSet.escapeKey: backslash first, then comma, equals sign and space. -/
def escapeKey (key : String) : String :=
  pyReplace (pyReplace (pyReplace (pyReplace key '\\' "\\\\") ',' "\\,") '=' "\\=") ' ' "\\ "

/-- TagSet.escapeValue: same replacements as for tag keys. -/
def escapeValue (value : String) : String :=
  pyReplace (pyReplace (pyReplace (pyReplace value '\\' "\\\\") ',' "\\,") '=' "\\=") ' ' "\\ "

/-- TagSet.toLineProtocol: build the escaped `k=v` strings, sort them with
Python list sort, and join with commas. -/
def toLineProtocol (tags : List (String × String)) : String :=
  pyJoin "," (pySorted (tags.map fun kv => escapeKey kv.1 ++ "=" ++ escapeValue kv.2))

end TagSet

namespace FieldSet

/-- FieldSet.escapeKey: identical to the tag-key escaping. -/
def escapeKey (key : String) : String :=
  pyReplace (pyReplace (pyReplace (pyReplace key '\\' "\\\\") ',' "\\,") '=' "\\=") ' ' "\\ "

/-- FieldSet.escapeValue.  Note the order of the replacements in the string
case: the source first escapes the double quote and only afterwards doubles
backslashes, so the backslash introduced for the quote is itself doubled. -/
def escapeValue : FieldValue → String
  | .bool b => if b then "T" else "F"
  | .int n => toString n ++ "i"
  | .float printed => printed
  | .str s => "\"" ++ pyReplace (pyReplace s '"' "\\\"") '\\' "\\\\" ++ "\""

/-- FieldSet.toLineProtocol: escaped `k=v` pairs joined by commas, in
insertion order (no sort). -/
def toLineProtocol (fields : List (String × FieldValue)) : String :=
  pyJoin "," (fields.map fun kv => escapeKey kv.1 ++ "=" ++ escapeValue kv.2)

end FieldSet

/-- What the specification describes for string field values: backslashes are
doubled first, and interior quotes are escaped afterwards. -/
def specEscapeStringValue (s : String) : String :=
  "\"" ++ pyReplace (pyReplace s '\\' "\\\\") '"' "\\\"" ++ "\""

/-- Namespace: a tagged variant (InfluxDB v1 / v2 / v3 destination). -/
inductive Namespace where
  | v1 (database retentionPolicy : String)
  | v2 (organization bucket : String)
  | v3 (name : String)
deriving DecidableEq, Repr

/-- Namespace.toUrlParameters. -/
def Namespace.toUrlParameters : Namespace → List (String × String)
  | .v1 database retentionPolicy => [("db", database), ("rp", retentionPolicy)]
  | .v2 organization bucket => [("org", organization), ("bucket", bucket)]
  | .v3 name => [("namespace", name)]

/-- Point.  The `time` attribute is the timestamp in integer nanoseconds
since the epoch (the Python source stores a `datetime` and always consumes
it through `int(time.timestamp() * 10**9)`), or `none` for a timeless
point. -/
structure Point where
  ns : Namespace
  measurement : String
  time : Option Int
  tags : List (String × String)
  fields : List (String × FieldValue)
deriving DecidableEq, Repr

/-- Point.escapeMeasurement: backslash, comma and space are escaped; the
equals sign passes through. -/
def Point.escapeMeasurement (measurement : String) : String :=
  pyReplace (pyReplace (pyReplace measurement '\\' "\\\\") ',' "\\,") ' ' "\\ "

/-- Point.toLineProtocol. -/
def Point.toLineProtocol (p : Point) : String :=
  Point.escapeMeasurement p.measurement
    ++ (if p.tags ≠ [] then "," ++ TagSet.toLineProtocol p.tags else "")
    ++ " "
    ++ FieldSet.toLineProtocol p.fields
    ++ (match p.time with
        | some t => " " ++ toString t
        | none => "")

/-! ## Claim C3: string field value escaping -/

/-- Claim C3 (code bug): the encoder escapes the double quote before doubling
backslashes, so the field value `a"b` is serialized as `"a\\"b"` (the
backslash inserted for the quote gets doubled), not as the `"a\"b"` that
backslash-first escaping (the specified order, and the order every other
escape helper in the same file uses) would produce. -/
theorem escapeValue_string_quote_then_backslash :
    FieldSet.escapeValue (.str "a\"b") = "\"a\\\\\"b\""
      ∧ specEscapeStringValue "a\"b" = "\"a\\\"b\""
      ∧ FieldSet.escapeValue (.str "a\"b") ≠ specEscapeStringValue "a\"b" := by
  refine ⟨?_, ?_, ?_⟩
  · decide
  · decide
  · decide

/-! ## Claim C4: tag ordering -/

/-- Helper: `TagSet.toLineProtocol` only depends on the multiset of tag
pairs, because the escaped pairs are sorted before joining. -/
theorem tagSet_toLineProtocol_perm {t1 t2 : List (String × String)}
    (h : List.Perm t1 t2) :
    TagSet.toLineProtocol t1 = TagSet.toLineProtocol t2 := by
  unfold TagSet.toLineProtocol
  rw [pySorted_congr_perm (List.Perm.map _ h)]

instance decPairKeyOrder :
    DecidableRel (fun a b : String × String =>
      pyStrLe (TagSet.escapeKey a.1) (TagSet.escapeKey b.1)) :=
  fun _ _ => inferInstanceAs (Decidable (pyStrLe _ _))

/-- Modelled from the spec's words, for comparison with the code: the tag
pairs sorted lexicographically by the escaped tag key. -/
def tagSetLineSortedByEscapedKeySpec (tags : List (String × String)) : String :=
  pyJoin ","
    ((List.insertionSort
        (fun a b : String × String =>
          pyStrLe (TagSet.escapeKey a.1) (TagSet.escapeKey b.1)) tags).map
      fun kv => TagSet.escapeKey kv.1 ++ "=" ++ TagSet.escapeValue kv.2)

/-- Claim C4 counterexample: the encoder sorts the full escaped `k=v` strings,
not the escaped keys.  With tag keys `a` and `a0` the pair `a0=y` sorts before
`a=x` (because the code point of `0` is below that of `=`), while sorting by
escaped key would put `a=x` first. -/
theorem tagset_not_sorted_by_escaped_key :
    TagSet.toLineProtocol [("a", "x"), ("a0", "y")] = "a0=y,a=x"
      ∧ tagSetLineSortedByEscapedKeySpec [("a", "x"), ("a0", "y")] = "a=x,a0=y"
      ∧ TagSet.toLineProtocol [("a", "x"), ("a0", "y")]
          ≠ tagSetLineSortedByEscapedKeySpec [("a", "x"), ("a0", "y")] := by
  refine ⟨by decide, by decide, by decide⟩

/-- Claim C4 (amended): `encode` places the tag pairs in lexicographically
sorted order of the full escaped `key=value` pair string (which coincides with
escaped-key order unless one escaped key is a proper prefix of another),
regardless of the insertion order of the tags: the emitted pair strings are a
`pyStrLe`-sorted permutation of the escaped pairs, so any two tag maps that
are equal as maps encode to the same tagset section. -/
theorem tagset_sorted_pairs_insertion_order_invariant :
    (∀ t1 t2 : List (String × String), List.Perm t1 t2 →
      TagSet.toLineProtocol t1 = TagSet.toLineProtocol t2)
      ∧ (∀ tags : List (String × String),
          TagSet.toLineProtocol tags
              = pyJoin "," (pySorted (tags.map fun kv =>
                  TagSet.escapeKey kv.1 ++ "=" ++ TagSet.escapeValue kv.2))
            ∧ List.Sorted pyStrLe (pySorted (tags.map fun kv =>
                TagSet.escapeKey kv.1 ++ "=" ++ TagSet.escapeValue kv.2))
            ∧ List.Perm
                (pySorted (tags.map fun kv =>
                  TagSet.escapeKey kv.1 ++ "=" ++ TagSet.escapeValue kv.2))
                (tags.map fun kv =>
                  TagSet.escapeKey kv.1 ++ "=" ++ TagSet.escapeValue kv.2)) := by
  constructor
  · intro t1 t2 h
    exact tagSet_toLineProtocol_perm h
  · intro tags
    exact ⟨rfl, pySorted_sorted _, pySorted_perm _⟩

/-- Witness for claim C4: two concrete insertion orders of the same tag map
encode identically. -/
theorem tagset_sorted_pairs_insertion_order_invariant_witness :
    TagSet.toLineProtocol [("b", "1"), ("a", "2")]
      = TagSet.toLineProtocol [("a", "2"), ("b", "1")] :=
  tagset_sorted_pairs_insertion_order_invariant.1
    [("b", "1"), ("a", "2")] [("a", "2"), ("b", "1")] (by decide)

/-! ## Telemessage (`eniris/telemessage/telemessage.py`) -/

/-- Python `b"\n".join(parts)`. -/
def pyJoinBytes (sep : List UInt8) : List (List UInt8) → List UInt8
  | [] => []
  | [x] => x
  | x :: y :: xs => x ++ sep ++ pyJoinBytes sep (y :: xs)

/-- Telemessage: query parameters, payload bytes, headers.  The constructor
accepting a list of lines joins them with the newline byte; `headers=None`
becomes the empty dictionary. -/
structure Telemessage where
  parameters : List (String × String)
  data : List UInt8
  headers : List (String × String)
deriving DecidableEq, Repr

/-- Telemessage construction from a list of line-protocol lines. -/
def Telemessage.ofLines (parameters : List (String × String))
    (dataLines : List (List UInt8)) (headers : List (String × String)) :
    Telemessage :=
  ⟨parameters, pyJoinBytes [10] dataLines, headers⟩

/-! ## gzip wrapper (`eniris/telemessage/writer/gzipped.py`), claim C8 -/

/-- GZipTelemessageWriter.writeTelemessage.  The gzip algorithm itself is
outside the repository; it is taken as an arbitrary `compress` function, and
the forwarded message is the return value. -/
def GZipTelemessageWriter.writeTelemessage
    (compress : List UInt8 → List UInt8) (message : Telemessage) : Telemessage :=
  let gzippedData := compress message.data
  let ammendedHeaders := dictSet message.headers "Content-Encoding" "gzip"
  let gzippedMessage : Telemessage :=
    ⟨message.parameters, gzippedData, ammendedHeaders⟩
  if message.data.length > gzippedData.length + 23 then gzippedMessage
  else message

/-- Claim C8: the gzip wrapper forwards the compressed message with a
`Content-Encoding: gzip` header exactly when `len(compressed) + 23 <
len(original)`, and the original message unchanged otherwise; in particular a
payload of at most 23 bytes (such as the spec's 10-byte payload) is always
forwarded uncompressed, no matter how well it compresses. -/
theorem gzip_forwards_compressed_iff_smaller :
    (∀ (compress : List UInt8 → List UInt8) (message : Telemessage),
      GZipTelemessageWriter.writeTelemessage compress message =
        if (compress message.data).length + 23 < message.data.length then
          ⟨message.parameters, compress message.data,
            dictSet message.headers "Content-Encoding" "gzip"⟩
        else message)
      ∧ (∀ (compress : List UInt8 → List UInt8) (message : Telemessage),
          message.data.length ≤ 23 →
          GZipTelemessageWriter.writeTelemessage compress message = message) := by
  constructor
  · intro compress message
    rfl
  · intro compress message h
    unfold GZipTelemessageWriter.writeTelemessage
    have : ¬ message.data.length > (compress message.data).length + 23 := by omega
    simp [this]

/-- Witness for claim C8: a 10-byte payload is forwarded unchanged even by a
compressor that shrinks it to nothing. -/
theorem gzip_forwards_compressed_iff_smaller_witness :
    GZipTelemessageWriter.writeTelemessage (fun _ => [])
        ⟨[("db", "d")], [109, 32, 102, 61, 49, 105, 32, 49, 48, 48], []⟩
      = ⟨[("db", "d")], [109, 32, 102, 61, 49, 105, 32, 49, 48, 48], []⟩ :=
  gzip_forwards_compressed_iff_smaller.2 (fun _ => [])
    ⟨[("db", "d")], [109, 32, 102, 61, 49, 105, 32, 49, 48, 48], []⟩ (by decide)

/-! ## Point buffer (`eniris/point/writer/buffered.py`), claim C2 -/

/-- String length as an integer (Python byte counts are `int`s that can go
down as well as up). -/
def slen (s : String) : Int :=
  s.length

/-- Lexicographic order on string pairs, used to give the frozenset of tag
pairs a canonical list representation. -/
def pyPairLt (a b : String × String) : Bool :=
  if pyStrLt a.1 b.1 then true
  else if pyStrLt b.1 a.1 then false
  else pyStrLt a.2 b.2

def pyPairLe (a b : String × String) : Prop :=
  pyPairLt b a = false

instance : DecidableRel pyPairLe := fun a b => by
  unfold pyPairLe
  infer_instance

/-- Canonical representative of a Python `frozenset` of string pairs: the
pairs in sorted order.  Dictionaries with the same key-value set map to the
same canonical list. -/
def canonPairs (l : List (String × String)) : List (String × String) :=
  List.insertionSort pyPairLe l

/-- Key of a point buffer entry: measurement, timestamp in nanoseconds, and
the frozenset of tag pairs. -/
abbrev PointKey := String × Int × List (String × String)

/-- createPointKey from `buffered.py`.  Returns `none` for a timeless point
(the source would raise, since `None` has no `timestamp` attribute). -/
def createPointKey (p : Point) : Option PointKey :=
  p.time.map fun t => (p.measurement, t, canonPairs p.tags)

/-- PointBuffer: namespace, creation time, entry map, running byte count. -/
structure PointBuffer where
  ns : Namespace
  creationDt : Int
  pointMap : List (PointKey × List (String × FieldValue))
  nrBytes : Int
deriving DecidableEq, Repr

def emptyPointBuffer (ns : Namespace) (creationDt : Int) : PointBuffer :=
  ⟨ns, creationDt, [], 0⟩

/-- The per-field part of `calculateNrExtraBytes`: for a field already
present, the growth of the escaped value; for a fresh field, separator plus
escaped key plus equals sign plus escaped value. -/
def fieldsDelta (existingFields newFields : List (String × FieldValue)) : Int :=
  (newFields.map fun kv =>
    match dictGet existingFields kv.1 with
    | some old => slen (FieldSet.escapeValue kv.2) - slen (FieldSet.escapeValue old)
    | none =>
      1 + slen (FieldSet.escapeKey kv.1) + 1 + slen (FieldSet.escapeValue kv.2)).sum

/-- PointBuffer.calculateNrExtraBytes.  `none` mirrors the crash on a
timeless point (`createPointKey` dereferences `point.time`); in the timed
case the source's `if point.time is not None` guard is always taken. -/
def PointBuffer.calculateNrExtraBytes (b : PointBuffer) (p : Point) :
    Option Int :=
  match p.time with
  | none => none
  | some t =>
    let pointKey : PointKey := (p.measurement, t, canonPairs p.tags)
    match dictGet b.pointMap pointKey with
    | none =>
      some ((slen (Point.escapeMeasurement p.measurement)
          + (if p.tags ≠ [] then 1 + slen (TagSet.toLineProtocol p.tags) else 0)
          + (1 + slen (toString t))
          + 1)
        + fieldsDelta [] p.fields)
    | some existingFields => some (fieldsDelta existingFields p.fields)

/-- Merge the new fields into the existing entry, per-field last-write-wins. -/
def dictSetMany (existing newFields : List (String × FieldValue)) :
    List (String × FieldValue) :=
  newFields.foldl (fun acc kv => dictSet acc kv.1 kv.2) existing

/-- PointBuffer.append: add the delta to `nrBytes`, then merge the fields
into the entry of the point's key (`setdefault` + per-field assignment). -/
def PointBuffer.append (b : PointBuffer) (p : Point) : Option PointBuffer :=
  match p.time, b.calculateNrExtraBytes p with
  | some t, some extra =>
    let pointKey : PointKey := (p.measurement, t, canonPairs p.tags)
    let existingFields := (dictGet b.pointMap pointKey).getD []
    some { b with
      nrBytes := b.nrBytes + extra,
      pointMap := dictSet b.pointMap pointKey (dictSetMany existingFields p.fields) }
  | _, _ => none

/-- PointBuffer.toPoints, restricted to a single entry: the point rebuilt
from an entry of the map. -/
def PointBuffer.entryToPoint (ns : Namespace)
    (e : PointKey × List (String × FieldValue)) : Point :=
  ⟨ns, e.1.1, some e.1.2.1, e.1.2.2, e.2⟩

/-- The line-protocol lines the buffer would serialize to right now
(`toPoints` followed by `toLineProtocol` on each point). -/
def PointBuffer.lines (b : PointBuffer) : List String :=
  b.pointMap.map fun e => (PointBuffer.entryToPoint b.ns e).toLineProtocol

/-- Iterated append. -/
def appendAll (b : PointBuffer) : List Point → Option PointBuffer
  | [] => some b
  | p :: ps =>
    match b.append p with
    | some b2 => appendAll b2 ps
    | none => none

/-- A transmittable point: it has a timestamp, at least one field, and (as in
any Python dict) no duplicate field keys. -/
def wfPoint (p : Point) : Prop :=
  p.time.isSome = true ∧ p.fields ≠ [] ∧ (p.fields.map Prod.fst).Nodup

instance (p : Point) : Decidable (wfPoint p) := by
  unfold wfPoint
  infer_instance

/-- Per-field byte weight: separator + escaped key + equals + escaped value. -/
def fieldsSum (fs : List (String × FieldValue)) : Int :=
  (fs.map fun kv =>
    2 + slen (FieldSet.escapeKey kv.1) + slen (FieldSet.escapeValue kv.2)).sum

/-- Per-entry header weight: escaped measurement, optional comma + tagset,
space + timestamp digits, plus one byte for the line separator. -/
def entryHeaderBytes (key : PointKey) : Int :=
  slen (Point.escapeMeasurement key.1)
    + (if key.2.2 ≠ [] then 1 + slen (TagSet.toLineProtocol key.2.2) else 0)
    + (1 + slen (toString key.2.1))
    + 1

/-- Total byte weight of the buffer as tracked by the code. -/
def bufferPhi (b : PointBuffer) : Int :=
  (b.pointMap.map fun e => entryHeaderBytes e.1 + fieldsSum e.2).sum

/-- Invariant maintained by `append`: the byte counter equals the total
weight, and every entry is nonempty with distinct field keys. -/
def bufferInv (b : PointBuffer) : Prop :=
  b.nrBytes = bufferPhi b
    ∧ ∀ e ∈ b.pointMap, e.2 ≠ [] ∧ (e.2.map Prod.fst).Nodup

theorem slen_append (a b : String) : slen (a ++ b) = slen a + slen b := by
  cases a with
  | mk da =>
    cases b with
    | mk db =>
      simp [slen, String.length, String.instAppend, String.append]

theorem fieldsDelta_nil (fs : List (String × FieldValue)) :
    fieldsDelta [] fs = fieldsSum fs := by
  unfold fieldsDelta fieldsSum
  congr 1
  apply List.map_congr_left
  intro kv _
  simp [dictGet]
  ring

theorem fieldsDelta_cons (existing : List (String × FieldValue))
    (kv : String × FieldValue) (rest : List (String × FieldValue)) :
    fieldsDelta existing (kv :: rest)
      = (match dictGet existing kv.1 with
          | some old =>
            slen (FieldSet.escapeValue kv.2) - slen (FieldSet.escapeValue old)
          | none =>
            1 + slen (FieldSet.escapeKey kv.1) + 1
              + slen (FieldSet.escapeValue kv.2))
        + fieldsDelta existing rest := by
  simp [fieldsDelta]

theorem fieldsDelta_congr {e1 e2 newFields : List (String × FieldValue)}
    (h : ∀ kv ∈ newFields, dictGet e1 kv.1 = dictGet e2 kv.1) :
    fieldsDelta e1 newFields = fieldsDelta e2 newFields := by
  unfold fieldsDelta
  congr 1
  apply List.map_congr_left
  intro kv hkv
  rw [h kv hkv]

theorem fieldsSum_dictSet (fs : List (String × FieldValue)) (k : String)
    (v : FieldValue) :
    fieldsSum (dictSet fs k v)
      = fieldsSum fs
        + (match dictGet fs k with
            | some old =>
              slen (FieldSet.escapeValue v) - slen (FieldSet.escapeValue old)
            | none =>
              2 + slen (FieldSet.escapeKey k) + slen (FieldSet.escapeValue v)) := by
  induction fs with
  | nil => simp [fieldsSum, dictSet, dictGet]
  | cons hd tl ih =>
    obtain ⟨k0, v0⟩ := hd
    by_cases h0 : k0 = k
    · subst h0
      simp [fieldsSum, dictSet, dictGet]
      ring
    · simp only [dictSet, if_neg h0, dictGet, fieldsSum, List.map_cons,
        List.sum_cons] at ih ⊢
      rw [ih]
      cases dictGet tl k with
      | none => ring
      | some old => ring

theorem fieldsSum_dictSetMany {newFields : List (String × FieldValue)}
    (existing : List (String × FieldValue))
    (h : (newFields.map Prod.fst).Nodup) :
    fieldsSum (dictSetMany existing newFields)
      = fieldsSum existing + fieldsDelta existing newFields := by
  induction newFields generalizing existing with
  | nil => simp [dictSetMany, fieldsDelta, fieldsSum]
  | cons kv rest ih =>
    obtain ⟨k, v⟩ := kv
    simp only [List.map_cons, List.nodup_cons] at h
    have step : dictSetMany existing ((k, v) :: rest)
        = dictSetMany (dictSet existing k v) rest := by
      simp [dictSetMany]
    rw [step, ih (dictSet existing k v) h.2, fieldsDelta_cons]
    have hrest : fieldsDelta (dictSet existing k v) rest
        = fieldsDelta existing rest := by
      apply fieldsDelta_congr
      intro kv2 hkv2
      apply dictGet_dictSet_ne
      intro hc
      exact h.1 (hc ▸ List.mem_map_of_mem Prod.fst hkv2)
    rw [hrest, fieldsSum_dictSet]
    cases dictGet existing k with
    | none => ring
    | some old => ring

theorem nodupKeys_dictSetMany {existing newFields : List (String × FieldValue)}
    (h : nodupKeys existing) : nodupKeys (dictSetMany existing newFields) := by
  induction newFields generalizing existing with
  | nil => simpa [dictSetMany] using h
  | cons kv rest ih =>
    have step : dictSetMany existing (kv :: rest)
        = dictSetMany (dictSet existing kv.1 kv.2) rest := by
      simp [dictSetMany]
    rw [step]
    exact ih (nodupKeys_dictSet kv.1 kv.2 h)

theorem length_dictSet_ge (l : List (String × FieldValue)) (k : String)
    (v : FieldValue) : l.length ≤ (dictSet l k v).length := by
  by_cases h : dictMember l k = true
  · rw [length_dictSet_present v h]
  · rw [length_dictSet_absent v (by simpa using h)]
    omega

theorem length_dictSetMany_ge (existing newFields : List (String × FieldValue)) :
    existing.length ≤ (dictSetMany existing newFields).length := by
  induction newFields generalizing existing with
  | nil => simp [dictSetMany]
  | cons kv rest ih =>
    have step : dictSetMany existing (kv :: rest)
        = dictSetMany (dictSet existing kv.1 kv.2) rest := by
      simp [dictSetMany]
    rw [step]
    exact le_trans (length_dictSet_ge existing kv.1 kv.2)
      (ih (dictSet existing kv.1 kv.2))

theorem dictSetMany_ne_nil {existing newFields : List (String × FieldValue)}
    (h : existing ≠ [] ∨ newFields ≠ []) : dictSetMany existing newFields ≠ [] := by
  cases h with
  | inl h =>
    intro hc
    have hlen := length_dictSetMany_ge existing newFields
    rw [hc] at hlen
    simp only [List.length_nil, Nat.le_zero] at hlen
    exact h (List.length_eq_zero.mp hlen)
  | inr h =>
    cases newFields with
    | nil => simp at h
    | cons kv rest =>
      have step : dictSetMany existing (kv :: rest)
          = dictSetMany (dictSet existing kv.1 kv.2) rest := by
        simp [dictSetMany]
      rw [step]
      intro hc
      have hlen := length_dictSetMany_ge (dictSet existing kv.1 kv.2) rest
      rw [hc] at hlen
      simp only [List.length_nil, Nat.le_zero] at hlen
      have h1 : dictSet existing kv.1 kv.2 ≠ [] := by
        cases existing with
        | nil => simp [dictSet]
        | cons e es =>
          obtain ⟨ek, ev⟩ := e
          by_cases hh : ek = kv.1 <;> simp [dictSet, hh]
      exact h1 (List.length_eq_zero.mp hlen)

theorem mem_dictSet {K V : Type} [DecidableEq K] {l : List (K × V)} {k : K}
    {v : V} {e : K × V} (h : e ∈ dictSet l k v) : e ∈ l ∨ e = (k, v) := by
  induction l with
  | nil => simpa [dictSet] using h
  | cons hd tl ih =>
    obtain ⟨k0, v0⟩ := hd
    by_cases h0 : k0 = k
    · subst h0
      simp only [dictSet, eq_self_iff_true, if_true, List.mem_cons] at h
      rcases h with h | h
      · exact Or.inr h
      · exact Or.inl (List.mem_cons_of_mem _ h)
    · simp only [dictSet, if_neg h0, List.mem_cons] at h
      rcases h with h | h
      · exact Or.inl (by simp [h])
      · rcases ih h with h2 | h2
        · exact Or.inl (List.mem_cons_of_mem _ h2)
        · exact Or.inr h2

theorem dictGet_mem {K V : Type} [DecidableEq K] {l : List (K × V)} {k : K}
    {v : V} (h : dictGet l k = some v) : (k, v) ∈ l := by
  induction l with
  | nil => simp [dictGet] at h
  | cons hd tl ih =>
    obtain ⟨k0, v0⟩ := hd
    by_cases h0 : k0 = k
    · subst h0
      simp only [dictGet, eq_self_iff_true, if_true, Option.some.injEq] at h
      simp [h]
    · simp only [dictGet, if_neg h0] at h
      exact List.mem_cons_of_mem _ (ih h)

theorem sum_map_dictSet_absent {K V : Type} [DecidableEq K] (g : K × V → Int)
    {l : List (K × V)} {k : K} (v : V) (h : dictGet l k = none) :
    ((dictSet l k v).map g).sum = (l.map g).sum + g (k, v) := by
  induction l with
  | nil => simp [dictSet]
  | cons hd tl ih =>
    obtain ⟨k0, v0⟩ := hd
    by_cases h0 : k0 = k
    · simp [dictGet, h0] at h
    · simp only [dictGet, if_neg h0] at h
      simp only [dictSet, if_neg h0, List.map_cons, List.sum_cons, ih h]
      ring

theorem sum_map_dictSet_present {K V : Type} [DecidableEq K] (g : K × V → Int)
    {l : List (K × V)} {k : K} {old : V} (v : V) (h : dictGet l k = some old) :
    ((dictSet l k v).map g).sum = (l.map g).sum + g (k, v) - g (k, old) := by
  induction l with
  | nil => simp [dictGet] at h
  | cons hd tl ih =>
    obtain ⟨k0, v0⟩ := hd
    by_cases h0 : k0 = k
    · subst h0
      simp only [dictGet, eq_self_iff_true, if_true, Option.some.injEq] at h
      subst h
      simp only [dictSet, eq_self_iff_true, if_true, List.map_cons,
        List.sum_cons]
      ring
    · simp only [dictGet, if_neg h0] at h
      simp only [dictSet, if_neg h0, List.map_cons, List.sum_cons, ih h]
      ring

theorem slen_pairStr (k : String) (v : FieldValue) :
    slen (FieldSet.escapeKey k ++ "=" ++ FieldSet.escapeValue v)
      = slen (FieldSet.escapeKey k) + 1 + slen (FieldSet.escapeValue v) := by
  rw [slen_append, slen_append]
  have heq : slen "=" = 1 := rfl
  rw [heq]

theorem slen_fields_toLineProtocol :
    ∀ {fs : List (String × FieldValue)}, fs ≠ [] →
      slen (FieldSet.toLineProtocol fs) = fieldsSum fs - 1 := by
  intro fs
  induction fs with
  | nil => intro h; contradiction
  | cons kv rest ih =>
    intro _
    cases rest with
    | nil =>
      have hone : FieldSet.toLineProtocol [kv]
          = FieldSet.escapeKey kv.1 ++ "=" ++ FieldSet.escapeValue kv.2 := rfl
      rw [hone, slen_pairStr]
      simp only [fieldsSum, List.map_cons, List.map_nil, List.sum_cons,
        List.sum_nil]
      ring
    | cons kv2 rest2 =>
      have hstep : FieldSet.toLineProtocol (kv :: kv2 :: rest2)
          = (FieldSet.escapeKey kv.1 ++ "=" ++ FieldSet.escapeValue kv.2)
            ++ "," ++ FieldSet.toLineProtocol (kv2 :: rest2) := rfl
      rw [hstep, slen_append, slen_append, slen_pairStr,
        ih (by simp)]
      have hcomma : slen "," = 1 := rfl
      rw [hcomma]
      simp only [fieldsSum, List.map_cons, List.sum_cons]
      ring

theorem slen_pyJoin_newline :
    ∀ {l : List String}, l ≠ [] →
      slen (pyJoin "\n" l) = ((l.map fun s => slen s + 1).sum) - 1 := by
  intro l
  induction l with
  | nil => intro h; contradiction
  | cons x rest ih =>
    intro _
    cases rest with
    | nil => simp [pyJoin]
    | cons y rest2 =>
      have hstep : pyJoin "\n" (x :: y :: rest2)
          = x ++ "\n" ++ pyJoin "\n" (y :: rest2) := rfl
      rw [hstep, slen_append, slen_append, ih (by simp)]
      have hnl : slen "\n" = 1 := rfl
      rw [hnl]
      simp only [List.map_cons, List.sum_cons]
      ring

theorem slen_entryLine (ns : Namespace) (meas : String) (t : Int)
    (tags : List (String × String)) {fs : List (String × FieldValue)}
    (h : fs ≠ []) :
    slen ((PointBuffer.entryToPoint ns ((meas, t, tags), fs)).toLineProtocol) + 1
      = entryHeaderBytes (meas, t, tags) + fieldsSum fs := by
  have hline : (PointBuffer.entryToPoint ns ((meas, t, tags), fs)).toLineProtocol
      = Point.escapeMeasurement meas
        ++ (if tags ≠ [] then "," ++ TagSet.toLineProtocol tags else "")
        ++ " " ++ FieldSet.toLineProtocol fs ++ (" " ++ toString t) := rfl
  by_cases htags : tags = []
  · subst htags
    rw [hline, if_neg (by simp)]
    simp only [slen_append]
    rw [slen_fields_toLineProtocol h]
    unfold entryHeaderBytes
    rw [if_neg (by simp)]
    have h1 : slen " " = 1 := rfl
    have h2 : slen "" = 0 := rfl
    rw [h1, h2]
    ring
  · rw [hline, if_pos htags]
    simp only [slen_append]
    rw [slen_fields_toLineProtocol h]
    unfold entryHeaderBytes
    rw [if_pos htags]
    have h1 : slen " " = 1 := rfl
    have h2 : slen "," = 1 := rfl
    rw [h1, h2]
    ring

theorem canonPairs_perm (l : List (String × String)) :
    List.Perm (canonPairs l) l :=
  List.perm_insertionSort pyPairLe l

theorem entryHeader_of_point (p : Point) (t : Int) :
    entryHeaderBytes (p.measurement, t, canonPairs p.tags)
      = slen (Point.escapeMeasurement p.measurement)
        + (if p.tags ≠ [] then 1 + slen (TagSet.toLineProtocol p.tags) else 0)
        + (1 + slen (toString t))
        + 1 := by
  have hperm := canonPairs_perm p.tags
  by_cases htags : p.tags = []
  · have hc : canonPairs p.tags = [] := by
      rw [htags]
      rfl
    rw [hc, htags]
    simp [entryHeaderBytes]
    try ring
  · have hc : canonPairs p.tags ≠ [] := by
      intro hcc
      apply htags
      have hl := hperm.length_eq
      rw [hcc] at hl
      exact List.length_eq_zero.mp hl.symm
    simp only [entryHeaderBytes]
    rw [if_pos hc, if_pos htags, tagSet_toLineProtocol_perm hperm]

theorem bufferInv_empty (ns : Namespace) (creationDt : Int) :
    bufferInv (emptyPointBuffer ns creationDt) := by
  constructor
  · rfl
  · intro e he
    simp [emptyPointBuffer] at he

theorem bufferInv_append {b b2 : PointBuffer} {p : Point}
    (hinv : bufferInv b) (hwf : wfPoint p) (h : b.append p = some b2) :
    bufferInv b2 := by
  obtain ⟨ht, hfs, hnodup⟩ := hwf
  obtain ⟨t, hts⟩ := Option.isSome_iff_exists.mp ht
  unfold PointBuffer.append PointBuffer.calculateNrExtraBytes at h
  rw [hts] at h
  dsimp only at h
  cases hget : dictGet b.pointMap (p.measurement, t, canonPairs p.tags) with
  | none =>
    rw [hget] at h
    dsimp only at h
    simp only [hget, Option.getD_none] at h
    obtain rfl := (Option.some_inj.mp h).symm
    constructor
    · dsimp only [bufferPhi]
      rw [sum_map_dictSet_absent _ _ hget]
      dsimp only
      rw [hinv.1]
      unfold bufferPhi
      rw [fieldsSum_dictSetMany [] hnodup, fieldsDelta_nil,
        entryHeader_of_point p t]
      rw [show fieldsSum [] = 0 from rfl]
      ring
    · intro e he
      dsimp only at he
      rcases mem_dictSet he with h2 | h2
      · exact hinv.2 e h2
      · subst h2
        refine ⟨dictSetMany_ne_nil (Or.inr hfs), ?_⟩
        exact nodupKeys_dictSetMany (by simp [nodupKeys])
  | some fs0 =>
    rw [hget] at h
    dsimp only at h
    simp only [hget, Option.getD_some] at h
    have hfs0 := hinv.2 _ (dictGet_mem hget)
    obtain rfl := (Option.some_inj.mp h).symm
    constructor
    · dsimp only [bufferPhi]
      rw [sum_map_dictSet_present _ _ hget]
      dsimp only
      rw [hinv.1]
      unfold bufferPhi
      rw [fieldsSum_dictSetMany fs0 hnodup]
      ring
    · intro e he
      dsimp only at he
      rcases mem_dictSet he with h2 | h2
      · exact hinv.2 e h2
      · subst h2
        refine ⟨dictSetMany_ne_nil (Or.inl hfs0.1), ?_⟩
        exact nodupKeys_dictSetMany hfs0.2

theorem bufferInv_appendAll :
    ∀ {ps : List Point} {b0 b : PointBuffer}, bufferInv b0 →
      (∀ p ∈ ps, wfPoint p) → appendAll b0 ps = some b → bufferInv b := by
  intro ps
  induction ps with
  | nil =>
    intro b0 b hinv _ h
    simp only [appendAll] at h
    obtain rfl := Option.some_inj.mp h
    exact hinv
  | cons p rest ih =>
    intro b0 b hinv hwf h
    unfold appendAll at h
    cases happ : b0.append p with
    | none => rw [happ] at h; simp at h
    | some b1 =>
      rw [happ] at h
      exact ih (bufferInv_append hinv (hwf p (by simp)) happ)
        (fun q hq => hwf q (by simp [hq])) h

theorem bufferPhi_eq_sum_lines {b : PointBuffer}
    (h : ∀ e ∈ b.pointMap, e.2 ≠ []) :
    bufferPhi b = (b.lines.map fun l => slen l + 1).sum := by
  unfold bufferPhi PointBuffer.lines
  rw [List.map_map]
  congr 1
  apply List.map_congr_left
  intro e he
  obtain ⟨⟨meas, t, tags⟩, fs⟩ := e
  exact (slen_entryLine b.ns meas t tags (h _ he)).symm

/-! ## Claim C2: byte accounting of the point buffer -/

/-- Claim C2 counterexample: the byte counter counts one newline per buffered
line, so after appending a single point serializing to the 8-character line
`m f=1i 0` the counter reads 9, not the 8 the claimed equality
`nrBytes == len(join(backslash-n, lines))` requires. -/
theorem pointBuffer_nrBytes_join_counterexample :
    (((emptyPointBuffer (Namespace.v1 "d" "r") 0).append
          ⟨Namespace.v1 "d" "r", "m", some 0, [], [("f", FieldValue.int 1)]⟩).map
        fun b => (b.nrBytes, slen (pyJoin "\n" b.lines))) = some (9, 8)
      ∧ (9 : Int) ≠ 8 := by
  exact ⟨by decide, by decide⟩

/-- Claim C2 (amended): after any sequence of `append` calls of transmittable
points (timestamped, at least one field, distinct field keys) on a fresh
PointBuffer, `nrBytes` equals the sum over the buffered line-protocol lines of
each line's length plus one — each line is counted with a trailing newline —
which equals `len(join(newline, lines)) + 1` whenever the buffer is
nonempty. -/
theorem pointBuffer_nrBytes_newline_accounting (ns : Namespace)
    (creationDt : Int) (ps : List Point) (b : PointBuffer)
    (hwf : ∀ p ∈ ps, wfPoint p)
    (h : appendAll (emptyPointBuffer ns creationDt) ps = some b) :
    b.nrBytes = (b.lines.map fun l => slen l + 1).sum
      ∧ (b.pointMap ≠ [] → b.nrBytes = slen (pyJoin "\n" b.lines) + 1) := by
  have hinv := bufferInv_appendAll (bufferInv_empty ns creationDt) hwf h
  have h1 : b.nrBytes = (b.lines.map fun l => slen l + 1).sum :=
    hinv.1.trans (bufferPhi_eq_sum_lines fun e he => (hinv.2 e he).1)
  refine ⟨h1, fun hne => ?_⟩
  have hlne : b.lines ≠ [] := by
    unfold PointBuffer.lines
    simpa using hne
  rw [h1, slen_pyJoin_newline hlne]
  ring

/-- Witness for claim C2 at a concrete one-point append sequence. -/
theorem pointBuffer_nrBytes_newline_accounting_witness :
    (⟨Namespace.v1 "d" "r", 0, [(("m", 0, []), [("f", FieldValue.int 1)])], 9⟩
        : PointBuffer).nrBytes
      = ((⟨Namespace.v1 "d" "r", 0,
            [(("m", 0, []), [("f", FieldValue.int 1)])], 9⟩
          : PointBuffer).lines.map fun l => slen l + 1).sum :=
  (pointBuffer_nrBytes_newline_accounting (Namespace.v1 "d" "r") 0
    [⟨Namespace.v1 "d" "r", "m", some 0, [], [("f", FieldValue.int 1)]⟩] _
    (by decide) (by decide)).1

/-! ## Point duplicate filter (`eniris/point/writer/filter.py`) -/

/-- Series key of a field: namespace parameter frozenset, measurement, tag
frozenset, field name.  Frozensets are carried by their canonical sorted
pair list. -/
structure SeriesKey where
  nsKey : List (String × String)
  measurement : String
  tagsKey : List (String × String)
  fieldKey : String
deriving DecidableEq, Repr

/-- State of a PointDuplicateFilter: configuration, the value cache
`memory : seriesKey -> (timestamp -> last value)` and the LRU index
`entryKey2updateTs : (seriesKey, timestamp) -> last update time`, both
insertion-ordered. -/
structure FilterState where
  maximumEntryAgeS : Int
  maximumSeriesEntryCount : Nat
  maximumEntryCount : Nat
  memory : List (SeriesKey × List (Int × FieldValue))
  entryKey2updateTs : List ((SeriesKey × Int) × Int)
deriving DecidableEq, Repr

/-- PointDuplicateFilter._delete (callers only pass present entries). -/
def FilterState.delete (st : FilterState) (sk : SeriesKey) (ts : Int) :
    FilterState :=
  let e2 := dictDelete st.entryKey2updateTs (sk, ts)
  let mv2 := dictDelete ((dictGet st.memory sk).getD []) ts
  { st with
    entryKey2updateTs := e2,
    memory :=
      if mv2.length = 0 then dictDelete st.memory sk
      else dictSet st.memory sk mv2 }

/-- Loop body of deleteExpiredEntries, with fuel bounding the iterations (the
source's `while` pops the front of the index until it meets a fresh entry). -/
def deleteExpiredLoop (threshold : Int) : Nat → FilterState → FilterState
  | 0, st => st
  | fuel + 1, st =>
    match st.entryKey2updateTs with
    | [] => st
    | ((sk, ts), updateTs) :: _ =>
      if updateTs > threshold then st
      else deleteExpiredLoop threshold fuel (st.delete sk ts)

/-- PointDuplicateFilter.deleteExpiredEntries at integer-nanosecond clock
reading `nowNs`: the threshold is `now - maximumEntryAgeS` in nanoseconds. -/
def FilterState.deleteExpiredEntries (st : FilterState) (nowNs : Int) :
    FilterState :=
  deleteExpiredLoop (nowNs - st.maximumEntryAgeS * 1000000000)
    st.entryKey2updateTs.length st

/-- The per-series cap loop: while the series holds too many timestamps, drop
`next(iter(cachedSeriesValues))`, the series' first-inserted timestamp. -/
def evictSeriesLoop (sk : SeriesKey) : Nat → FilterState → FilterState
  | 0, st => st
  | fuel + 1, st =>
    let cached := (dictGet st.memory sk).getD []
    if cached.length > st.maximumSeriesEntryCount then
      match cached with
      | (ts, _) :: _ => evictSeriesLoop sk fuel (st.delete sk ts)
      | [] => st
    else st

/-- The global cap loop: while the index holds too many entries, drop
`next(iter(entryKey2updateTs))`, the front of the LRU index. -/
def evictGlobalLoop : Nat → FilterState → FilterState
  | 0, st => st
  | fuel + 1, st =>
    if st.entryKey2updateTs.length > st.maximumEntryCount then
      match st.entryKey2updateTs with
      | ((sk, ts), _) :: _ => evictGlobalLoop fuel (st.delete sk ts)
      | [] => st
    else st

/-- One iteration of the `for fieldKey in point.fields` loop of writePoints:
refresh the LRU entry (unconditionally) and move it to the end, cache the
value and record the field as updated when it is new or different, then
enforce both caps. -/
def FilterState.processField (st : FilterState) (currentTs pTs : Int)
    (nsKey tagsKey : List (String × String)) (measurement : String)
    (updatedFields : List (String × FieldValue)) (fieldKey : String)
    (fieldValue : FieldValue) :
    FilterState × List (String × FieldValue) :=
  let seriesKey : SeriesKey := ⟨nsKey, measurement, tagsKey, fieldKey⟩
  let e2 := moveToEnd (dictSet st.entryKey2updateTs (seriesKey, pTs) currentTs)
    (seriesKey, pTs)
  let cached := (dictGet st.memory seriesKey).getD []
  let cached2 :=
    if dictGet cached pTs ≠ some fieldValue then dictSet cached pTs fieldValue
    else cached
  let updated2 :=
    if dictGet cached pTs ≠ some fieldValue then
      updatedFields ++ [(fieldKey, fieldValue)]
    else updatedFields
  let st2 := { st with
    memory := dictSet st.memory seriesKey cached2,
    entryKey2updateTs := e2 }
  let st3 := evictSeriesLoop seriesKey
    ((dictGet st2.memory seriesKey).getD []).length st2
  let st4 := evictGlobalLoop st3.entryKey2updateTs.length st3
  (st4, updated2)

/-- One iteration of the `for point in points` loop of writePoints: timeless
points pass through untouched; otherwise the surviving fields form the
outgoing point, and a point with no surviving field is dropped. -/
def FilterState.processPoint (currentTs : Int) (acc : FilterState × List Point)
    (p : Point) : FilterState × List Point :=
  match p.time with
  | none => (acc.1, acc.2 ++ [p])
  | some pTs =>
    let r := p.fields.foldl
      (fun a kv =>
        FilterState.processField a.1 currentTs pTs
          (canonPairs (Namespace.toUrlParameters p.ns)) (canonPairs p.tags)
          p.measurement a.2 kv.1 kv.2)
      (acc.1, ([] : List (String × FieldValue)))
    if r.2.length > 0 then
      (r.1, acc.2 ++ [⟨p.ns, p.measurement, p.time, p.tags, r.2⟩])
    else (r.1, acc.2)

/-- PointDuplicateFilter.writePoints at clock reading `nowNs`: expire old
entries, process each point, and hand the surviving points downstream in a
single call (`none` models "no downstream call"). -/
def FilterState.writePoints (st : FilterState) (points : List Point)
    (nowNs : Int) : FilterState × Option (List Point) :=
  if points.length = 0 then (st, none)
  else
    let st1 := st.deleteExpiredEntries nowNs
    let r := points.foldl (FilterState.processPoint nowNs) (st1, [])
    if r.2.length > 0 then (r.1, some r.2) else (r.1, none)

/-- Number of cached timestamps of one series. -/
def seriesLen (st : FilterState) (sk : SeriesKey) : Nat :=
  ((dictGet st.memory sk).getD []).length

/-- Structural well-formedness: the two dictionaries have no duplicate keys
(Python dictionaries cannot). -/
def FilterWf (st : FilterState) : Prop :=
  nodupKeys st.memory ∧ nodupKeys st.entryKey2updateTs

/-- The configured caps hold. -/
def capsOk (st : FilterState) : Prop :=
  st.entryKey2updateTs.length ≤ st.maximumEntryCount
    ∧ ∀ sk : SeriesKey, seriesLen st sk ≤ st.maximumSeriesEntryCount

theorem delete_maxima (st : FilterState) (sk : SeriesKey) (ts : Int) :
    (st.delete sk ts).maximumEntryAgeS = st.maximumEntryAgeS
      ∧ (st.delete sk ts).maximumSeriesEntryCount = st.maximumSeriesEntryCount
      ∧ (st.delete sk ts).maximumEntryCount = st.maximumEntryCount :=
  ⟨rfl, rfl, rfl⟩

theorem delete_entryLen_le (st : FilterState) (sk : SeriesKey) (ts : Int) :
    (st.delete sk ts).entryKey2updateTs.length
      ≤ st.entryKey2updateTs.length :=
  length_dictDelete_le _ _

theorem FilterWf.delete {st : FilterState} (h : FilterWf st) (sk : SeriesKey)
    (ts : Int) : FilterWf (st.delete sk ts) := by
  refine ⟨?_, nodupKeys_dictDelete _ h.2⟩
  unfold FilterState.delete
  dsimp only
  by_cases hz :
      (dictDelete ((dictGet st.memory sk).getD []) ts).length = 0
  · rw [if_pos hz]
    exact nodupKeys_dictDelete _ h.1
  · rw [if_neg hz]
    exact nodupKeys_dictSet _ _ h.1

theorem seriesLen_delete_other {st : FilterState} {sk sk2 : SeriesKey}
    (h : sk2 ≠ sk) (ts : Int) :
    seriesLen (st.delete sk ts) sk2 = seriesLen st sk2 := by
  unfold seriesLen FilterState.delete
  dsimp only
  by_cases hz :
      (dictDelete ((dictGet st.memory sk).getD []) ts).length = 0
  · rw [if_pos hz, dictGet_dictDelete_ne _ h]
  · rw [if_neg hz, dictGet_dictSet_ne _ _ h]

theorem seriesLen_delete_self {st : FilterState} (hwf : nodupKeys st.memory)
    (sk : SeriesKey) (ts : Int) :
    seriesLen (st.delete sk ts) sk
      = (dictDelete ((dictGet st.memory sk).getD []) ts).length := by
  unfold seriesLen FilterState.delete
  dsimp only
  by_cases hz :
      (dictDelete ((dictGet st.memory sk).getD []) ts).length = 0
  · rw [if_pos hz, dictGet_dictDelete_self hwf]
    simpa using hz.symm
  · rw [if_neg hz, dictGet_dictSet_self]
    rfl

theorem seriesLen_delete_le {st : FilterState} (hwf : nodupKeys st.memory)
    (sk sk2 : SeriesKey) (ts : Int) :
    seriesLen (st.delete sk ts) sk2 ≤ seriesLen st sk2 := by
  by_cases h : sk2 = sk
  · subst h
    rw [seriesLen_delete_self hwf]
    exact le_trans (length_dictDelete_le _ _) (le_refl _)
  · rw [seriesLen_delete_other h]

theorem capsOk_delete {st : FilterState} (hwf : FilterWf st) (hc : capsOk st)
    (sk : SeriesKey) (ts : Int) : capsOk (st.delete sk ts) := by
  constructor
  · exact le_trans (delete_entryLen_le st sk ts) hc.1
  · intro sk2
    exact le_trans (seriesLen_delete_le hwf.1 sk sk2 ts) (hc.2 sk2)

theorem deleteExpiredLoop_wf_caps (threshold : Int) :
    ∀ (fuel : Nat) (st : FilterState), FilterWf st → capsOk st →
      FilterWf (deleteExpiredLoop threshold fuel st)
        ∧ capsOk (deleteExpiredLoop threshold fuel st)
        ∧ (deleteExpiredLoop threshold fuel st).maximumSeriesEntryCount
            = st.maximumSeriesEntryCount
        ∧ (deleteExpiredLoop threshold fuel st).maximumEntryCount
            = st.maximumEntryCount := by
  intro fuel
  induction fuel with
  | zero => intro st hwf hc; exact ⟨hwf, hc, rfl, rfl⟩
  | succ n ih =>
    intro st hwf hc
    unfold deleteExpiredLoop
    cases he : st.entryKey2updateTs with
    | nil => exact ⟨hwf, hc, rfl, rfl⟩
    | cons hd rest =>
      obtain ⟨⟨sk, ts⟩, updateTs⟩ := hd
      dsimp only
      by_cases hu : updateTs > threshold
      · rw [if_pos hu]
        exact ⟨hwf, hc, rfl, rfl⟩
      · rw [if_neg hu]
        have := ih (st.delete sk ts) (hwf.delete sk ts)
          (capsOk_delete hwf hc sk ts)
        exact ⟨this.1, this.2.1, this.2.2.1, this.2.2.2⟩

theorem delete_head_entry {st : FilterState} {sk : SeriesKey} {ts u : Int}
    {rest : List ((SeriesKey × Int) × Int)}
    (h : st.entryKey2updateTs = ((sk, ts), u) :: rest) :
    (st.delete sk ts).entryKey2updateTs = rest := by
  unfold FilterState.delete
  dsimp only
  rw [h]
  simp [dictDelete]

theorem evictGlobalLoop_out :
    ∀ (fuel : Nat) (st : FilterState), FilterWf st →
      st.entryKey2updateTs.length ≤ fuel + st.maximumEntryCount →
      FilterWf (evictGlobalLoop fuel st)
        ∧ (evictGlobalLoop fuel st).entryKey2updateTs.length
            ≤ st.maximumEntryCount
        ∧ (∀ sk2, seriesLen (evictGlobalLoop fuel st) sk2 ≤ seriesLen st sk2)
        ∧ (evictGlobalLoop fuel st).maximumSeriesEntryCount
            = st.maximumSeriesEntryCount
        ∧ (evictGlobalLoop fuel st).maximumEntryCount
            = st.maximumEntryCount := by
  intro fuel
  induction fuel with
  | zero =>
    intro st hwf hlen
    simp only [Nat.zero_add] at hlen
    exact ⟨hwf, hlen, fun _ => le_refl _, rfl, rfl⟩
  | succ n ih =>
    intro st hwf hlen
    unfold evictGlobalLoop
    by_cases hbig : st.entryKey2updateTs.length > st.maximumEntryCount
    · rw [if_pos hbig]
      cases he : st.entryKey2updateTs with
      | nil => rw [he] at hbig; simp at hbig
      | cons hd rest =>
        obtain ⟨⟨sk, ts⟩, u⟩ := hd
        dsimp only
        have hdel : (st.delete sk ts).entryKey2updateTs = rest :=
          delete_head_entry he
        have hlen2 : (st.delete sk ts).entryKey2updateTs.length
            ≤ n + (st.delete sk ts).maximumEntryCount := by
          rw [hdel, (delete_maxima st sk ts).2.2]
          rw [he] at hlen
          simp only [List.length_cons] at hlen
          omega
        have := ih (st.delete sk ts) (hwf.delete sk ts) hlen2
        refine ⟨this.1, ?_, ?_, ?_, ?_⟩
        · rw [(delete_maxima st sk ts).2.2] at this
          exact this.2.1
        · intro sk2
          exact le_trans (this.2.2.1 sk2) (seriesLen_delete_le hwf.1 sk sk2 ts)
        · rw [this.2.2.2.1, (delete_maxima st sk ts).2.1]
        · rw [this.2.2.2.2, (delete_maxima st sk ts).2.2]
    · rw [if_neg hbig]
      exact ⟨hwf, by omega, fun _ => le_refl _, rfl, rfl⟩

theorem evictSeriesLoop_out (sk : SeriesKey) :
    ∀ (fuel : Nat) (st : FilterState), FilterWf st →
      seriesLen st sk ≤ fuel + st.maximumSeriesEntryCount →
      FilterWf (evictSeriesLoop sk fuel st)
        ∧ seriesLen (evictSeriesLoop sk fuel st) sk
            ≤ st.maximumSeriesEntryCount
        ∧ (∀ sk2, sk2 ≠ sk →
            seriesLen (evictSeriesLoop sk fuel st) sk2 = seriesLen st sk2)
        ∧ (evictSeriesLoop sk fuel st).entryKey2updateTs.length
            ≤ st.entryKey2updateTs.length
        ∧ (evictSeriesLoop sk fuel st).maximumSeriesEntryCount
            = st.maximumSeriesEntryCount
        ∧ (evictSeriesLoop sk fuel st).maximumEntryCount
            = st.maximumEntryCount := by
  intro fuel
  induction fuel with
  | zero =>
    intro st hwf hlen
    simp only [Nat.zero_add] at hlen
    exact ⟨hwf, hlen, fun _ _ => rfl, le_refl _, rfl, rfl⟩
  | succ n ih =>
    intro st hwf hlen
    unfold evictSeriesLoop
    dsimp only
    by_cases hbig :
        ((dictGet st.memory sk).getD []).length > st.maximumSeriesEntryCount
    · rw [if_pos hbig]
      cases hc : (dictGet st.memory sk).getD [] with
      | nil => rw [hc] at hbig; simp at hbig
      | cons hd rest =>
        obtain ⟨ts, v⟩ := hd
        dsimp only
        have hdel : seriesLen (st.delete sk ts) sk = rest.length := by
          rw [seriesLen_delete_self hwf.1, hc]
          simp [dictDelete]
        have hlen2 : seriesLen (st.delete sk ts) sk
            ≤ n + (st.delete sk ts).maximumSeriesEntryCount := by
          rw [hdel, (delete_maxima st sk ts).2.1]
          have : seriesLen st sk = rest.length + 1 := by
            unfold seriesLen
            rw [hc]
            simp
          rw [this] at hlen
          omega
        have := ih (st.delete sk ts) (hwf.delete sk ts) hlen2
        refine ⟨this.1, ?_, ?_, ?_, ?_, ?_⟩
        · rw [(delete_maxima st sk ts).2.1] at this
          exact this.2.1
        · intro sk2 hne
          rw [this.2.2.1 sk2 hne, seriesLen_delete_other hne]
        · exact le_trans this.2.2.2.1 (delete_entryLen_le st sk ts)
        · rw [this.2.2.2.2.1, (delete_maxima st sk ts).2.1]
        · rw [this.2.2.2.2.2, (delete_maxima st sk ts).2.2]
    · rw [if_neg hbig]
      have hsl : seriesLen st sk = ((dictGet st.memory sk).getD []).length := rfl
      exact ⟨hwf, by omega, fun _ _ => rfl, le_refl _, rfl, rfl⟩

theorem evictBoth_caps (sk : SeriesKey) (f1 : Nat) (st2 : FilterState)
    (hwf : FilterWf st2)
    (hf1 : seriesLen st2 sk ≤ f1 + st2.maximumSeriesEntryCount)
    (hother : ∀ sk2, sk2 ≠ sk →
      seriesLen st2 sk2 ≤ st2.maximumSeriesEntryCount) :
    FilterWf (evictGlobalLoop
        (evictSeriesLoop sk f1 st2).entryKey2updateTs.length
        (evictSeriesLoop sk f1 st2))
      ∧ capsOk (evictGlobalLoop
          (evictSeriesLoop sk f1 st2).entryKey2updateTs.length
          (evictSeriesLoop sk f1 st2)) := by
  have h3 := evictSeriesLoop_out sk f1 st2 hwf hf1
  obtain ⟨wf3, hsk3, hother3, hlen3, hmaxs3, hmaxe3⟩ := h3
  have h4 := evictGlobalLoop_out
    (evictSeriesLoop sk f1 st2).entryKey2updateTs.length
    (evictSeriesLoop sk f1 st2) wf3 (by omega)
  obtain ⟨wf4, hg4, hser4, hmaxs4, hmaxe4⟩ := h4
  refine ⟨wf4, ?_, ?_⟩
  · rw [hmaxe4]
    exact hg4
  · intro sk2
    rw [hmaxs4, hmaxs3]
    by_cases hne : sk2 = sk
    · subst hne
      exact le_trans (hser4 sk2) hsk3
    · refine le_trans (hser4 sk2) ?_
      rw [hother3 sk2 hne]
      exact hother sk2 hne

theorem processField_caps (st : FilterState) (now pTs : Int)
    (nsKey tagsKey : List (String × String)) (meas : String)
    (u : List (String × FieldValue)) (fk : String) (v : FieldValue)
    (hwf : FilterWf st) (hc : capsOk st) :
    FilterWf (st.processField now pTs nsKey tagsKey meas u fk v).1
      ∧ capsOk (st.processField now pTs nsKey tagsKey meas u fk v).1 := by
  unfold FilterState.processField
  dsimp only
  apply evictBoth_caps
  · exact ⟨nodupKeys_dictSet _ _ hwf.1,
      nodupKeys_moveToEnd _ (nodupKeys_dictSet _ _ hwf.2)⟩
  · exact Nat.le_add_right _ _
  · intro sk2 hne
    have : seriesLen
        { st with
          memory := dictSet st.memory ⟨nsKey, meas, tagsKey, fk⟩
            (if dictGet ((dictGet st.memory ⟨nsKey, meas, tagsKey, fk⟩).getD [])
                  pTs ≠ some v then
              dictSet ((dictGet st.memory ⟨nsKey, meas, tagsKey, fk⟩).getD [])
                pTs v
            else (dictGet st.memory ⟨nsKey, meas, tagsKey, fk⟩).getD []),
          entryKey2updateTs := moveToEnd
            (dictSet st.entryKey2updateTs (⟨nsKey, meas, tagsKey, fk⟩, pTs) now)
            (⟨nsKey, meas, tagsKey, fk⟩, pTs) } sk2
        = seriesLen st sk2 := by
      unfold seriesLen
      dsimp only
      rw [dictGet_dictSet_ne _ _ hne]
    rw [this]
    exact hc.2 sk2

theorem foldl_processField_caps (now pTs : Int)
    (nsKey tagsKey : List (String × String)) (meas : String) :
    ∀ (fields : List (String × FieldValue)) (st : FilterState)
      (u : List (String × FieldValue)), FilterWf st → capsOk st →
      FilterWf ((fields.foldl
            (fun a kv =>
              FilterState.processField a.1 now pTs nsKey tagsKey meas a.2
                kv.1 kv.2) (st, u)).1)
        ∧ capsOk ((fields.foldl
            (fun a kv =>
              FilterState.processField a.1 now pTs nsKey tagsKey meas a.2
                kv.1 kv.2) (st, u)).1) := by
  intro fields
  induction fields with
  | nil => intro st u hwf hc; exact ⟨hwf, hc⟩
  | cons kv rest ih =>
    intro st u hwf hc
    rw [List.foldl_cons]
    have hstep := processField_caps st now pTs nsKey tagsKey meas u kv.1 kv.2
      hwf hc
    have := ih (st.processField now pTs nsKey tagsKey meas u kv.1 kv.2).1
      (st.processField now pTs nsKey tagsKey meas u kv.1 kv.2).2
      hstep.1 hstep.2
    simpa using this

theorem processPoint_caps (now : Int) (acc : FilterState × List Point)
    (p : Point) (hwf : FilterWf acc.1) (hc : capsOk acc.1) :
    FilterWf (FilterState.processPoint now acc p).1
      ∧ capsOk (FilterState.processPoint now acc p).1 := by
  unfold FilterState.processPoint
  cases hp : p.time with
  | none => exact ⟨hwf, hc⟩
  | some pTs =>
    dsimp only
    have := foldl_processField_caps now pTs
      (canonPairs (Namespace.toUrlParameters p.ns)) (canonPairs p.tags)
      p.measurement p.fields acc.1 [] hwf hc
    by_cases hlen : (p.fields.foldl
        (fun a kv =>
          FilterState.processField a.1 now pTs
            (canonPairs (Namespace.toUrlParameters p.ns)) (canonPairs p.tags)
            p.measurement a.2 kv.1 kv.2) (acc.1, [])).2.length > 0
    · rw [if_pos hlen]
      exact this
    · rw [if_neg hlen]
      exact this

theorem foldl_processPoint_caps (now : Int) :
    ∀ (pts : List Point) (st : FilterState) (out : List Point),
      FilterWf st → capsOk st →
      FilterWf ((pts.foldl (FilterState.processPoint now) (st, out)).1)
        ∧ capsOk ((pts.foldl (FilterState.processPoint now) (st, out)).1) := by
  intro pts
  induction pts with
  | nil => intro st out hwf hc; exact ⟨hwf, hc⟩
  | cons p rest ih =>
    intro st out hwf hc
    rw [List.foldl_cons]
    have hstep := processPoint_caps now (st, out) p hwf hc
    have := ih (FilterState.processPoint now (st, out) p).1
      (FilterState.processPoint now (st, out) p).2 hstep.1 hstep.2
    simpa using this

theorem writePoints_caps (st : FilterState) (pts : List Point) (now : Int)
    (hwf : FilterWf st) (hc : capsOk st) :
    FilterWf (st.writePoints pts now).1 ∧ capsOk (st.writePoints pts now).1 := by
  unfold FilterState.writePoints
  by_cases h0 : pts.length = 0
  · rw [if_pos h0]
    exact ⟨hwf, hc⟩
  · rw [if_neg h0]
    dsimp only
    have hdel := deleteExpiredLoop_wf_caps
      (now - st.maximumEntryAgeS * 1000000000)
      st.entryKey2updateTs.length st hwf hc
    have := foldl_processPoint_caps now pts
      (st.deleteExpiredEntries now) [] hdel.1 hdel.2.1
    by_cases hlen : (pts.foldl (FilterState.processPoint now)
        (st.deleteExpiredEntries now, [])).2.length > 0
    · rw [if_pos hlen]
      exact this
    · rw [if_neg hlen]
      exact this

/-! ## Claim C7: filter caps and eviction order -/

/-- Starting state, points and series key of the per-series eviction
counterexample run. -/
def cexFilter0 : FilterState :=
  FilterState.mk 1000000000 2 100 [] []

/-- A point of the counterexample series with the given timestamp and value. -/
def cexPoint (ts v : Int) : Point :=
  ⟨Namespace.v3 "n", "m", some ts, [], [("f", FieldValue.int v)]⟩

def cexFilter1 : FilterState := (cexFilter0.writePoints [cexPoint 1 1] 10).1

def cexFilter2 : FilterState := (cexFilter1.writePoints [cexPoint 2 2] 20).1

def cexFilter3 : FilterState := (cexFilter2.writePoints [cexPoint 1 3] 30).1

def cexFilter4 : FilterState := (cexFilter3.writePoints [cexPoint 3 4] 40).1

def cexSeriesKey : SeriesKey :=
  ⟨[("namespace", "n")], "m", [], "f"⟩

/-- One step of the global-cap loop deletes the front entry of the index. -/
theorem evictGlobalLoop_succ_head (st : FilterState) (fuel : Nat)
    {sk : SeriesKey} {ts u : Int} {rest : List ((SeriesKey × Int) × Int)}
    (he : st.entryKey2updateTs = ((sk, ts), u) :: rest)
    (hbig : st.entryKey2updateTs.length > st.maximumEntryCount) :
    evictGlobalLoop (fuel + 1) st = evictGlobalLoop fuel (st.delete sk ts) := by
  conv_lhs => unfold evictGlobalLoop
  rw [if_pos hbig, he]

/-- One step of the series-cap loop deletes the first-inserted timestamp of
the series. -/
theorem evictSeriesLoop_succ_head (st : FilterState) (fuel : Nat)
    (sk : SeriesKey) {ts : Int} {v : FieldValue}
    {rest : List (Int × FieldValue)}
    (hc : (dictGet st.memory sk).getD [] = (ts, v) :: rest)
    (hbig : ((dictGet st.memory sk).getD []).length
      > st.maximumSeriesEntryCount) :
    evictSeriesLoop sk (fuel + 1) st
      = evictSeriesLoop sk fuel (st.delete sk ts) := by
  conv_lhs => unfold evictSeriesLoop
  dsimp only
  rw [if_pos hbig, hc]

/-- Claim C7 counterexample: the per-series cap does not evict the
least-recently-updated entry of the series.  One series receives timestamps
1 and 2, then timestamp 1 is updated again (so timestamp 2 becomes the
least-recently-updated entry: update time 20 versus 30), and a fourth write
overflows the 2-entry series cap: the filter evicts timestamp 1 — the
series' first-inserted entry, updated most recently — while the older
timestamp 2 survives. -/
theorem filter_series_eviction_not_lru :
    dictGet cexFilter4.memory cexSeriesKey
        = some [(2, FieldValue.int 2), (3, FieldValue.int 4)]
      ∧ dictGet cexFilter3.entryKey2updateTs (cexSeriesKey, 1) = some 30
      ∧ dictGet cexFilter4.entryKey2updateTs (cexSeriesKey, 1) = none
      ∧ dictGet cexFilter4.entryKey2updateTs (cexSeriesKey, 2) = some 20
      ∧ (20 : Int) < 30 := by
  refine ⟨by decide, by decide, by decide, by decide, by decide⟩

/-- Claim C7 (amended): after every writePoints call the caps hold — the
total entry count is at most `maximumEntryCount` and every series holds at
most `maximumSeriesEntryCount` entries, provided the caps held before the
call; when the global cap is exceeded the front entry of the update-time
index is evicted first, which is a least-recently-updated entry whenever the
index is ordered by update time (as the move-to-end refreshes maintain); when
the per-series cap is exceeded, the evicted entry is the series'
first-inserted timestamp, not its least-recently-updated one. -/
theorem filter_caps_and_eviction :
    (∀ (st : FilterState) (pts : List Point) (now : Int),
        FilterWf st → capsOk st → capsOk (st.writePoints pts now).1)
      ∧ (∀ (st : FilterState) (fuel : Nat),
          List.Pairwise (fun a b => a.2 ≤ b.2) st.entryKey2updateTs →
          st.maximumEntryCount < st.entryKey2updateTs.length →
          ∃ sk ts u rest,
            st.entryKey2updateTs = ((sk, ts), u) :: rest
              ∧ (∀ e ∈ st.entryKey2updateTs, u ≤ e.2)
              ∧ evictGlobalLoop (fuel + 1) st
                  = evictGlobalLoop fuel (st.delete sk ts))
      ∧ (∀ (st : FilterState) (fuel : Nat) (sk : SeriesKey),
          st.maximumSeriesEntryCount < seriesLen st sk →
          ∃ ts v rest,
            (dictGet st.memory sk).getD [] = (ts, v) :: rest
              ∧ evictSeriesLoop sk (fuel + 1) st
                  = evictSeriesLoop sk fuel (st.delete sk ts)) := by
  refine ⟨?_, ?_, ?_⟩
  · intro st pts now hwf hc
    exact (writePoints_caps st pts now hwf hc).2
  · intro st fuel hsorted hbig
    obtain ⟨hd, rest, he⟩ :
        ∃ hd rest, st.entryKey2updateTs = hd :: rest := by
      cases hh : st.entryKey2updateTs with
      | nil => rw [hh] at hbig; simp at hbig
      | cons a b => exact ⟨a, b, rfl⟩
    obtain ⟨⟨sk, ts⟩, u⟩ := hd
    refine ⟨sk, ts, u, rest, he, ?_, ?_⟩
    · intro e hee
      rw [he] at hee hsorted
      rcases List.mem_cons.mp hee with h2 | h2
      · rw [h2]
      · exact (List.pairwise_cons.mp hsorted).1 e h2
    · exact evictGlobalLoop_succ_head st fuel he (by omega)
  · intro st fuel sk hbig
    obtain ⟨hd, rest, hc⟩ :
        ∃ hd rest, (dictGet st.memory sk).getD [] = hd :: rest := by
      cases hh : (dictGet st.memory sk).getD [] with
      | nil =>
        unfold seriesLen at hbig
        rw [hh] at hbig
        simp at hbig
      | cons a b => exact ⟨a, b, rfl⟩
    obtain ⟨ts, v⟩ := hd
    refine ⟨ts, v, rest, hc, ?_⟩
    refine evictSeriesLoop_succ_head st fuel sk hc ?_
    unfold seriesLen at hbig
    omega

/-- Witness for claim C7: the caps hold after a concrete write into an empty
filter with caps 2 and 100. -/
theorem filter_caps_and_eviction_witness :
    capsOk ((FilterState.mk 1000000000 2 100 [] []).writePoints
        [⟨Namespace.v3 "n", "m", some 1, [], [("f", FieldValue.int 1)]⟩] 10).1 := by
  apply filter_caps_and_eviction.1
  · exact ⟨by simp [nodupKeys], by simp [nodupKeys]⟩
  · constructor
    · simp
    · intro sk
      simp [seriesLen, dictGet]

section PyDictMore

variable {K V : Type} [DecidableEq K]

theorem dictSet_absent_append {l : List (K × V)} {k : K} (v : V)
    (h : dictGet l k = none) : dictSet l k v = l ++ [(k, v)] := by
  induction l with
  | nil => simp [dictSet]
  | cons hd tl ih =>
    obtain ⟨k0, v0⟩ := hd
    by_cases h0 : k0 = k
    · simp [dictGet, h0] at h
    · simp only [dictGet, if_neg h0] at h
      simp [dictSet, h0, ih h]

theorem dictDelete_append_left {l : List (K × V)} (m : List (K × V)) {k : K}
    (h : dictGet l k = none) : dictDelete (l ++ m) k = l ++ dictDelete m k := by
  induction l with
  | nil => simp
  | cons hd tl ih =>
    obtain ⟨k0, v0⟩ := hd
    by_cases h0 : k0 = k
    · simp [dictGet, h0] at h
    · simp only [dictGet, if_neg h0] at h
      simp [dictDelete, h0, ih h]

theorem moveToEnd_append_fresh {l : List (K × V)} {k : K} (v : V)
    (h : dictGet l k = none) : moveToEnd (l ++ [(k, v)]) k = l ++ [(k, v)] := by
  unfold moveToEnd
  have hg : dictGet (l ++ [(k, v)]) k = some v := by
    rw [dictGet_append, h]
    simp [dictGet]
  rw [hg]
  rw [dictDelete_append_left _ h]
  simp [dictDelete]

theorem dictDelete_dictSet_present {l : List (K × V)} {k : K} (v : V)
    (h : dictMember l k = true) :
    dictDelete (dictSet l k v) k = dictDelete l k := by
  induction l with
  | nil => simp [dictMember, dictGet] at h
  | cons hd tl ih =>
    obtain ⟨k0, v0⟩ := hd
    by_cases h0 : k0 = k
    · simp [dictSet, dictDelete, h0]
    · simp only [dictMember, dictGet, if_neg h0] at h
      simp [dictSet, dictDelete, h0, ih h]

end PyDictMore

theorem evictSeriesLoop_noop {st : FilterState} {sk : SeriesKey}
    (h : seriesLen st sk ≤ st.maximumSeriesEntryCount) :
    ∀ fuel, evictSeriesLoop sk fuel st = st := by
  intro fuel
  cases fuel with
  | zero => rfl
  | succ n =>
    unfold evictSeriesLoop
    dsimp only
    rw [if_neg (by unfold seriesLen at h; omega)]

theorem evictGlobalLoop_noop {st : FilterState}
    (h : st.entryKey2updateTs.length ≤ st.maximumEntryCount) :
    ∀ fuel, evictGlobalLoop fuel st = st := by
  intro fuel
  cases fuel with
  | zero => rfl
  | succ n =>
    unfold evictGlobalLoop
    rw [if_neg (by omega)]

theorem deleteExpiredLoop_noop {st : FilterState} {threshold : Int}
    (h : ∀ e ∈ st.entryKey2updateTs, threshold < e.2) :
    ∀ fuel, deleteExpiredLoop threshold fuel st = st := by
  intro fuel
  cases fuel with
  | zero => rfl
  | succ n =>
    unfold deleteExpiredLoop
    cases he : st.entryKey2updateTs with
    | nil => rfl
    | cons hd rest =>
      obtain ⟨⟨sk, ts⟩, u⟩ := hd
      dsimp only
      rw [if_pos (show u > threshold from
        h _ (by rw [he]; exact List.mem_cons_self _ _))]

theorem deleteExpiredEntries_noop {st : FilterState} {nowNs : Int}
    (h : ∀ e ∈ st.entryKey2updateTs,
      nowNs - st.maximumEntryAgeS * 1000000000 < e.2) :
    st.deleteExpiredEntries nowNs = st :=
  deleteExpiredLoop_noop h _

/-- processField on a series/timestamp the filter has never seen: the entry
is appended to both structures and the field is reported as updated. -/
theorem processField_fresh (st : FilterState) (now pTs : Int)
    (nsKey tagsKey : List (String × String)) (meas : String)
    (u : List (String × FieldValue)) (fk : String) (v : FieldValue)
    (hmem : dictGet st.memory ⟨nsKey, meas, tagsKey, fk⟩ = none)
    (hidx : dictGet st.entryKey2updateTs
      (⟨nsKey, meas, tagsKey, fk⟩, pTs) = none)
    (hser : 1 ≤ st.maximumSeriesEntryCount)
    (hglob : st.entryKey2updateTs.length + 1 ≤ st.maximumEntryCount) :
    st.processField now pTs nsKey tagsKey meas u fk v
      = ({ st with
            memory := st.memory
              ++ [(⟨nsKey, meas, tagsKey, fk⟩, [(pTs, v)])],
            entryKey2updateTs := st.entryKey2updateTs
              ++ [((⟨nsKey, meas, tagsKey, fk⟩, pTs), now)] },
          u ++ [(fk, v)]) := by
  unfold FilterState.processField
  dsimp only
  rw [hmem]
  simp only [Option.getD_none]
  have hcond : dictGet ([] : List (Int × FieldValue)) pTs ≠ some v := by
    simp [dictGet]
  rw [if_pos hcond, if_pos hcond]
  rw [dictSet_absent_append now hidx, moveToEnd_append_fresh now hidx]
  rw [show dictSet ([] : List (Int × FieldValue)) pTs v = [(pTs, v)] from rfl]
  rw [dictSet_absent_append _ hmem]
  have hget2 : dictGet
      (st.memory ++ [(⟨nsKey, meas, tagsKey, fk⟩, [(pTs, v)])])
      ⟨nsKey, meas, tagsKey, fk⟩ = some [(pTs, v)] := by
    rw [dictGet_append, hmem]
    simp [dictGet]
  have hser2 : seriesLen
      { st with
        memory := st.memory ++ [(⟨nsKey, meas, tagsKey, fk⟩, [(pTs, v)])],
        entryKey2updateTs := st.entryKey2updateTs
          ++ [((⟨nsKey, meas, tagsKey, fk⟩, pTs), now)] }
      ⟨nsKey, meas, tagsKey, fk⟩ ≤ st.maximumSeriesEntryCount := by
    unfold seriesLen
    dsimp only
    rw [hget2]
    simpa using hser
  rw [hget2]
  rw [evictSeriesLoop_noop hser2]
  have hglob2 : ({ st with
      memory := st.memory ++ [(⟨nsKey, meas, tagsKey, fk⟩, [(pTs, v)])],
      entryKey2updateTs := st.entryKey2updateTs
        ++ [((⟨nsKey, meas, tagsKey, fk⟩, pTs), now)] }
        : FilterState).entryKey2updateTs.length
      ≤ st.maximumEntryCount := by
    dsimp only
    rw [List.length_append]
    simpa using hglob
  rw [evictGlobalLoop_noop hglob2]

/-- processField on a cached, equal value: the field is suppressed, the
memory is untouched, and the LRU entry is refreshed to `now` and moved to
the most-recently-used end of the index. -/
theorem processField_suppressed (st : FilterState) (now pTs : Int)
    (nsKey tagsKey : List (String × String)) (meas : String)
    (u : List (String × FieldValue)) (fk : String) (v : FieldValue)
    {mv : List (Int × FieldValue)}
    (hmem : dictGet st.memory ⟨nsKey, meas, tagsKey, fk⟩ = some mv)
    (hcached : dictGet mv pTs = some v)
    (hser : mv.length ≤ st.maximumSeriesEntryCount)
    (hidx : dictMember st.entryKey2updateTs
      (⟨nsKey, meas, tagsKey, fk⟩, pTs) = true)
    (hglob : st.entryKey2updateTs.length ≤ st.maximumEntryCount) :
    st.processField now pTs nsKey tagsKey meas u fk v
      = ({ st with
            entryKey2updateTs :=
              dictDelete st.entryKey2updateTs (⟨nsKey, meas, tagsKey, fk⟩, pTs)
                ++ [((⟨nsKey, meas, tagsKey, fk⟩, pTs), now)] },
          u) := by
  unfold FilterState.processField
  dsimp only
  rw [hmem]
  simp only [Option.getD_some]
  have hcond : ¬ (dictGet mv pTs ≠ some v) := by
    rw [hcached]
    simp
  rw [if_neg hcond, if_neg hcond]
  have hmove : moveToEnd
      (dictSet st.entryKey2updateTs (⟨nsKey, meas, tagsKey, fk⟩, pTs) now)
      (⟨nsKey, meas, tagsKey, fk⟩, pTs)
      = dictDelete st.entryKey2updateTs (⟨nsKey, meas, tagsKey, fk⟩, pTs)
        ++ [((⟨nsKey, meas, tagsKey, fk⟩, pTs), now)] := by
    unfold moveToEnd
    rw [dictGet_dictSet_self]
    rw [dictDelete_dictSet_present now hidx]
  rw [hmove, dictSet_same hmem]
  have hget2 : dictGet
      ({ st with
          entryKey2updateTs :=
            dictDelete st.entryKey2updateTs (⟨nsKey, meas, tagsKey, fk⟩, pTs)
              ++ [((⟨nsKey, meas, tagsKey, fk⟩, pTs), now)] }
        : FilterState).memory ⟨nsKey, meas, tagsKey, fk⟩ = some mv := hmem
  rw [hget2]
  have hser2 : seriesLen
      { st with
        entryKey2updateTs :=
          dictDelete st.entryKey2updateTs (⟨nsKey, meas, tagsKey, fk⟩, pTs)
            ++ [((⟨nsKey, meas, tagsKey, fk⟩, pTs), now)] }
      ⟨nsKey, meas, tagsKey, fk⟩ ≤ st.maximumSeriesEntryCount := by
    unfold seriesLen
    dsimp only
    rw [hmem]
    simpa using hser
  rw [evictSeriesLoop_noop hser2]
  have hglob2 : ({ st with
      entryKey2updateTs :=
        dictDelete st.entryKey2updateTs (⟨nsKey, meas, tagsKey, fk⟩, pTs)
          ++ [((⟨nsKey, meas, tagsKey, fk⟩, pTs), now)] }
      : FilterState).entryKey2updateTs.length ≤ st.maximumEntryCount := by
    dsimp only
    rw [List.length_append]
    have := length_dictDelete_present hidx
    simp only [List.length_cons, List.length_nil]
    omega
  rw [evictGlobalLoop_noop hglob2]

theorem nodupKeys_delete_append {K V : Type} [DecidableEq K]
    {l : List (K × V)} (k : K) (v : V) (h : nodupKeys l) :
    nodupKeys (dictDelete l k ++ [(k, v)]) := by
  have hd := nodupKeys_dictDelete k h
  have hk : k ∉ (dictDelete l k).map Prod.fst := by
    rw [← dictGet_eq_none_iff]
    exact dictGet_dictDelete_self h k
  unfold nodupKeys at hd ⊢
  simp [List.nodup_append, hd, hk]

theorem fresh_key_injective (nsKey tagsKey : List (String × String))
    (meas : String) : Function.Injective
      (fun k => (⟨nsKey, meas, tagsKey, k⟩ : SeriesKey)) := by
  intro a b h
  simpa [SeriesKey.mk.injEq] using h

theorem dictGet_map_entry (nsKey tagsKey : List (String × String))
    (meas : String) (pTs : Int) :
    ∀ (fields : List (String × FieldValue)) (k0 : String) (v0 : FieldValue),
      (fields.map Prod.fst).Nodup → (k0, v0) ∈ fields →
      dictGet (fields.map fun kv =>
          ((⟨nsKey, meas, tagsKey, kv.1⟩ : SeriesKey), [(pTs, kv.2)]))
        ⟨nsKey, meas, tagsKey, k0⟩ = some [(pTs, v0)] := by
  intro fields
  induction fields with
  | nil => intro k0 v0 _ hm; simp at hm
  | cons kv rest ih =>
    intro k0 v0 hnodup hm
    obtain ⟨k1, v1⟩ := kv
    simp only [List.map_cons, List.nodup_cons] at hnodup
    by_cases h1 : k1 = k0
    · subst h1
      have hv : v0 = v1 := by
        rcases List.mem_cons.mp hm with h2 | h2
        · exact (Prod.ext_iff.mp h2).2
        · exact absurd (List.mem_map_of_mem Prod.fst h2) hnodup.1
      subst hv
      simp [dictGet]
    · have hkey : (⟨nsKey, meas, tagsKey, k1⟩ : SeriesKey)
          ≠ ⟨nsKey, meas, tagsKey, k0⟩ := by
        simp [SeriesKey.mk.injEq, h1]
      have hm2 : (k0, v0) ∈ rest := by
        rcases List.mem_cons.mp hm with h2 | h2
        · exact absurd (congrArg Prod.fst h2).symm h1
        · exact h2
      simp only [List.map_cons, dictGet, if_neg hkey]
      exact ih k0 v0 hnodup.2 hm2

theorem dictGet_map_index (nsKey tagsKey : List (String × String))
    (meas : String) (pTs now : Int) :
    ∀ (fields : List (String × FieldValue)) (k0 : String),
      k0 ∈ fields.map Prod.fst →
      dictGet (fields.map fun kv =>
          ((((⟨nsKey, meas, tagsKey, kv.1⟩ : SeriesKey), pTs)), now))
        (⟨nsKey, meas, tagsKey, k0⟩, pTs) = some now := by
  intro fields
  induction fields with
  | nil => intro k0 hm; simp at hm
  | cons kv rest ih =>
    intro k0 hm
    obtain ⟨k1, v1⟩ := kv
    by_cases h1 : k1 = k0
    · subst h1
      simp [dictGet]
    · have hkey : ((⟨nsKey, meas, tagsKey, k1⟩ : SeriesKey), pTs)
          ≠ (⟨nsKey, meas, tagsKey, k0⟩, pTs) := by
        simp [SeriesKey.mk.injEq, h1]
      have hm2 : k0 ∈ rest.map Prod.fst := by
        rcases List.mem_cons.mp hm with h2 | h2
        · exact absurd h2.symm h1
        · exact h2
      simp only [List.map_cons, dictGet, if_neg hkey]
      exact ih k0 hm2

theorem nodupKeys_map_index (nsKey tagsKey : List (String × String))
    (meas : String) (pTs now : Int) {fields : List (String × FieldValue)}
    (h : (fields.map Prod.fst).Nodup) :
    nodupKeys (fields.map fun kv =>
      ((((⟨nsKey, meas, tagsKey, kv.1⟩ : SeriesKey), pTs)), now)) := by
  unfold nodupKeys
  have hkeys : (fields.map fun kv =>
        ((((⟨nsKey, meas, tagsKey, kv.1⟩ : SeriesKey), pTs)), now)).map Prod.fst
      = (fields.map Prod.fst).map
          (fun k => ((⟨nsKey, meas, tagsKey, k⟩ : SeriesKey), pTs)) := by
    simp [List.map_map, Function.comp]
  rw [hkeys]
  apply List.Nodup.map ?_ h
  intro a b hab
  simpa [SeriesKey.mk.injEq] using hab

/-- A run of the field loop over keys the filter has never seen: all entries
are appended in order and every field survives. -/
theorem foldl_processField_fresh (now pTs : Int)
    (nsKey tagsKey : List (String × String)) (meas : String) :
    ∀ (fields : List (String × FieldValue)) (st : FilterState)
      (u : List (String × FieldValue)),
      (fields.map Prod.fst).Nodup →
      (∀ kv ∈ fields,
        dictGet st.memory ⟨nsKey, meas, tagsKey, kv.1⟩ = none) →
      (∀ kv ∈ fields,
        dictGet st.entryKey2updateTs (⟨nsKey, meas, tagsKey, kv.1⟩, pTs)
          = none) →
      1 ≤ st.maximumSeriesEntryCount →
      st.entryKey2updateTs.length + fields.length ≤ st.maximumEntryCount →
      fields.foldl
          (fun a kv =>
            FilterState.processField a.1 now pTs nsKey tagsKey meas a.2
              kv.1 kv.2) (st, u)
        = ({ st with
              memory := st.memory ++ fields.map (fun kv =>
                ((⟨nsKey, meas, tagsKey, kv.1⟩ : SeriesKey), [(pTs, kv.2)])),
              entryKey2updateTs := st.entryKey2updateTs
                ++ fields.map (fun kv =>
                  ((((⟨nsKey, meas, tagsKey, kv.1⟩ : SeriesKey), pTs)), now)) },
            u ++ fields) := by
  intro fields
  induction fields with
  | nil =>
    intro st u _ _ _ _ _
    simp
  | cons kv rest ih =>
    intro st u hnodup hmem hidx hser hglob
    obtain ⟨fk, v⟩ := kv
    simp only [List.map_cons, List.nodup_cons] at hnodup
    rw [List.foldl_cons]
    rw [processField_fresh st now pTs nsKey tagsKey meas u fk v
      (hmem _ (List.mem_cons_self _ _)) (hidx _ (List.mem_cons_self _ _))
      hser (by simp only [List.length_cons] at hglob; omega)]
    rw [ih _ _ hnodup.2 ?hmem2 ?hidx2 ?hser2 ?hglob2]
    case hser2 => exact hser
    case hmem2 =>
      intro kv2 hkv2
      have hne : (⟨nsKey, meas, tagsKey, fk⟩ : SeriesKey)
          ≠ ⟨nsKey, meas, tagsKey, kv2.1⟩ := by
        simp only [ne_eq, SeriesKey.mk.injEq]
        intro hc
        exact hnodup.1 (hc.2.2.2 ▸ List.mem_map_of_mem Prod.fst hkv2)
      dsimp only
      rw [dictGet_append, hmem _ (List.mem_cons_of_mem _ hkv2)]
      simp [dictGet, hne]
    case hidx2 =>
      intro kv2 hkv2
      have hne : ((⟨nsKey, meas, tagsKey, fk⟩ : SeriesKey), pTs)
          ≠ ((⟨nsKey, meas, tagsKey, kv2.1⟩ : SeriesKey), pTs) := by
        simp only [ne_eq, Prod.mk.injEq, SeriesKey.mk.injEq]
        intro hc
        exact hnodup.1 (hc.1.2.2.2 ▸ List.mem_map_of_mem Prod.fst hkv2)
      dsimp only
      rw [dictGet_append, hidx _ (List.mem_cons_of_mem _ hkv2)]
      simp [dictGet, hne]
    case hglob2 =>
      dsimp only
      rw [List.length_append]
      simp only [List.length_cons] at hglob
      simp only [List.length_cons, List.length_nil]
      omega
    simp [List.append_assoc]

/-- A run of the field loop over cached, equal values: nothing survives. -/
theorem foldl_processField_suppressed (now pTs : Int)
    (nsKey tagsKey : List (String × String)) (meas : String) :
    ∀ (fields : List (String × FieldValue)) (st : FilterState)
      (u : List (String × FieldValue)),
      nodupKeys st.entryKey2updateTs →
      (∀ kv ∈ fields, ∃ mv,
        dictGet st.memory ⟨nsKey, meas, tagsKey, kv.1⟩ = some mv
          ∧ dictGet mv pTs = some kv.2
          ∧ mv.length ≤ st.maximumSeriesEntryCount) →
      (∀ kv ∈ fields,
        dictMember st.entryKey2updateTs (⟨nsKey, meas, tagsKey, kv.1⟩, pTs)
          = true) →
      st.entryKey2updateTs.length ≤ st.maximumEntryCount →
      (fields.foldl
          (fun a kv =>
            FilterState.processField a.1 now pTs nsKey tagsKey meas a.2
              kv.1 kv.2) (st, u)).2 = u := by
  intro fields
  induction fields with
  | nil => intro st u _ _ _ _; rfl
  | cons kv rest ih =>
    intro st u hwfe hmem hidx hglob
    obtain ⟨fk, v⟩ := kv
    obtain ⟨mv, hmv, hcached, hser⟩ := hmem _ (List.mem_cons_self _ _)
    rw [List.foldl_cons]
    rw [processField_suppressed st now pTs nsKey tagsKey meas u fk v hmv
      hcached hser (hidx _ (List.mem_cons_self _ _)) hglob]
    apply ih
    · exact nodupKeys_delete_append _ now hwfe
    · intro kv2 hkv2
      obtain ⟨mv2, hmv2, hc2, hs2⟩ := hmem _ (List.mem_cons_of_mem _ hkv2)
      exact ⟨mv2, hmv2, hc2, hs2⟩
    · intro kv2 hkv2
      dsimp only
      unfold dictMember
      rw [dictGet_append]
      by_cases hsame : ((⟨nsKey, meas, tagsKey, kv2.1⟩ : SeriesKey), pTs)
          = ((⟨nsKey, meas, tagsKey, fk⟩ : SeriesKey), pTs)
      · rw [hsame, dictGet_dictDelete_self hwfe]
        simp [dictGet]
      · rw [dictGet_dictDelete_ne _ hsame]
        have := hidx _ (List.mem_cons_of_mem _ hkv2)
        unfold dictMember at this
        cases hg : dictGet st.entryKey2updateTs
            (⟨nsKey, meas, tagsKey, kv2.1⟩, pTs) with
        | none => rw [hg] at this; simp at this
        | some w => simp
    · dsimp only
      rw [List.length_append]
      have hlen := length_dictDelete_present (hidx _ (List.mem_cons_self _ _))
      dsimp only at hlen
      simp only [List.length_cons, List.length_nil]
      omega

theorem writePoints_never_empty (st : FilterState) (pts : List Point)
    (now : Int) : (st.writePoints pts now).2 ≠ some [] := by
  unfold FilterState.writePoints
  by_cases h0 : pts.length = 0
  · rw [if_pos h0]
    simp
  · rw [if_neg h0]
    dsimp only
    by_cases hlen : (pts.foldl (FilterState.processPoint now)
        (st.deleteExpiredEntries now, [])).2.length > 0
    · rw [if_pos hlen]
      dsimp only
      intro hc
      rw [Option.some_inj.mp hc] at hlen
      simp at hlen
    · rw [if_neg hlen]
      simp

/-! ## Claim C6: idempotence of the duplicate filter -/

/-- Claim C6: writing a timestamped point into a fresh filter emits the full
point; writing the very same point again (with no intervening eviction: the
caps accommodate its fields and the second write happens within the entry
age) produces no downstream call at all; and in general the filter hands the
surviving points downstream in one single call and never passes an empty
list. -/
theorem duplicateFilter_idempotent_single_batch (p : Point)
    (t ageS now1 now2 : Int) (maxSeries maxEntry : Nat)
    (hts : p.time = some t)
    (hfs : p.fields ≠ [])
    (hnodup : (p.fields.map Prod.fst).Nodup)
    (hser : 1 ≤ maxSeries)
    (hglob : p.fields.length ≤ maxEntry)
    (hfresh : now2 - ageS * 1000000000 < now1) :
    ((FilterState.mk ageS maxSeries maxEntry [] []).writePoints [p] now1).2
        = some [p]
      ∧ (((FilterState.mk ageS maxSeries maxEntry [] []).writePoints [p]
            now1).1.writePoints [p] now2).2 = none
      ∧ ∀ (st : FilterState) (pts : List Point) (now : Int),
          (st.writePoints pts now).2 ≠ some [] := by
  have hcall1 : (FilterState.mk ageS maxSeries maxEntry [] []).writePoints
      [p] now1
      = (FilterState.mk ageS maxSeries maxEntry
          (p.fields.map fun kv =>
            ((⟨canonPairs (Namespace.toUrlParameters p.ns), p.measurement,
                canonPairs p.tags, kv.1⟩ : SeriesKey), [(t, kv.2)]))
          (p.fields.map fun kv =>
            ((((⟨canonPairs (Namespace.toUrlParameters p.ns), p.measurement,
                canonPairs p.tags, kv.1⟩ : SeriesKey), t)), now1)),
        some [p]) := by
    unfold FilterState.writePoints
    rw [if_neg (by simp)]
    dsimp only
    rw [show (FilterState.mk ageS maxSeries maxEntry [] []).deleteExpiredEntries
        now1 = FilterState.mk ageS maxSeries maxEntry [] [] from rfl]
    simp only [List.foldl_cons, List.foldl_nil]
    unfold FilterState.processPoint
    rw [hts]
    dsimp only
    rw [foldl_processField_fresh now1 t
      (canonPairs (Namespace.toUrlParameters p.ns)) (canonPairs p.tags)
      p.measurement p.fields (FilterState.mk ageS maxSeries maxEntry [] []) []
      hnodup (fun kv _ => rfl) (fun kv _ => rfl) hser
      (by simpa using hglob)]
    dsimp only
    simp only [List.nil_append]
    rw [if_pos (List.length_pos.mpr hfs)]
    have hpt : (⟨p.ns, p.measurement, some t, p.tags, p.fields⟩ : Point) = p := by
      rw [← hts]
    rw [hpt]
    rw [if_pos (by simp)]
  refine ⟨by rw [hcall1], ?_, writePoints_never_empty⟩
  rw [hcall1]
  dsimp only
  unfold FilterState.writePoints
  rw [if_neg (by simp)]
  dsimp only
  rw [deleteExpiredEntries_noop ?hfr]
  case hfr =>
    intro e he
    dsimp only at he
    obtain ⟨kv, _, hkv⟩ := List.mem_map.mp he
    rw [← hkv]
    dsimp only
    exact hfresh
  simp only [List.foldl_cons, List.foldl_nil]
  unfold FilterState.processPoint
  rw [hts]
  dsimp only
  have hsup := foldl_processField_suppressed now2 t
    (canonPairs (Namespace.toUrlParameters p.ns)) (canonPairs p.tags)
    p.measurement p.fields
    (FilterState.mk ageS maxSeries maxEntry
      (p.fields.map fun kv =>
        ((⟨canonPairs (Namespace.toUrlParameters p.ns), p.measurement,
            canonPairs p.tags, kv.1⟩ : SeriesKey), [(t, kv.2)]))
      (p.fields.map fun kv =>
        ((((⟨canonPairs (Namespace.toUrlParameters p.ns), p.measurement,
            canonPairs p.tags, kv.1⟩ : SeriesKey), t)), now1))) []
    (nodupKeys_map_index _ _ _ _ _ hnodup)
    (fun kv hkv =>
      ⟨[(t, kv.2)], dictGet_map_entry _ _ _ _ p.fields kv.1 kv.2 hnodup hkv,
        by simp [dictGet], by simpa using hser⟩)
    (fun kv hkv => by
      unfold dictMember
      rw [dictGet_map_index _ _ _ _ now1 p.fields kv.1
        (List.mem_map_of_mem Prod.fst hkv)]
      rfl)
    (by simpa using hglob)
  rw [if_neg (by rw [hsup]; simp)]

/-- Witness for claim C6 at a concrete point written twice. -/
theorem duplicateFilter_idempotent_single_batch_witness :
    ((FilterState.mk 1000000 1 10 [] []).writePoints
        [⟨Namespace.v1 "d" "r", "m", some 5, [("id", "x")],
          [("f", FieldValue.int 1)]⟩] 100).2
      = some [⟨Namespace.v1 "d" "r", "m", some 5, [("id", "x")],
          [("f", FieldValue.int 1)]⟩] :=
  (duplicateFilter_idempotent_single_batch
    ⟨Namespace.v1 "d" "r", "m", some 5, [("id", "x")],
      [("f", FieldValue.int 1)]⟩
    5 1000000 100 200 1 10 rfl (by decide) (by decide) (by decide)
    (by decide) (by decide)).1

/-! ## Claim C10: suppressed duplicates refresh the LRU entry -/

/-- Claim C10: when a timestamped single-field point whose value equals the
cached value is written (and no eviction interferes: the entries are fresh
enough and the caps hold), no downstream call is made, the value cache is
untouched, and yet the LRU entry of `(seriesKey, pointTimestamp)` is
refreshed to the current write time and moved to the most-recently-used end
of the index — so suppressed duplicates postpone expiry and LRU eviction. -/
theorem filter_refreshes_lru_on_suppressed_duplicate (st : FilterState)
    (p : Point) (t now : Int) (fk : String) (v : FieldValue)
    (mv : List (Int × FieldValue))
    (hts : p.time = some t)
    (hf : p.fields = [(fk, v)])
    (hwfe : nodupKeys st.entryKey2updateTs)
    (hmem : dictGet st.memory
      ⟨canonPairs (Namespace.toUrlParameters p.ns), p.measurement,
        canonPairs p.tags, fk⟩ = some mv)
    (hcached : dictGet mv t = some v)
    (hser : mv.length ≤ st.maximumSeriesEntryCount)
    (hidx : dictMember st.entryKey2updateTs
      (⟨canonPairs (Namespace.toUrlParameters p.ns), p.measurement,
        canonPairs p.tags, fk⟩, t) = true)
    (hglob : st.entryKey2updateTs.length ≤ st.maximumEntryCount)
    (hfresh : ∀ e ∈ st.entryKey2updateTs,
      now - st.maximumEntryAgeS * 1000000000 < e.2) :
    (st.writePoints [p] now).2 = none
      ∧ (st.writePoints [p] now).1.memory = st.memory
      ∧ dictGet (st.writePoints [p] now).1.entryKey2updateTs
          (⟨canonPairs (Namespace.toUrlParameters p.ns), p.measurement,
            canonPairs p.tags, fk⟩, t) = some now
      ∧ (st.writePoints [p] now).1.entryKey2updateTs.getLast?
          = some ((⟨canonPairs (Namespace.toUrlParameters p.ns), p.measurement,
              canonPairs p.tags, fk⟩, t), now) := by
  have hcall : st.writePoints [p] now
      = ({ st with
            entryKey2updateTs :=
              dictDelete st.entryKey2updateTs
                  (⟨canonPairs (Namespace.toUrlParameters p.ns), p.measurement,
                    canonPairs p.tags, fk⟩, t)
                ++ [((⟨canonPairs (Namespace.toUrlParameters p.ns),
                    p.measurement, canonPairs p.tags, fk⟩, t), now)] },
          none) := by
    unfold FilterState.writePoints
    rw [if_neg (by simp)]
    dsimp only
    rw [deleteExpiredEntries_noop hfresh]
    simp only [List.foldl_cons, List.foldl_nil]
    unfold FilterState.processPoint
    rw [hts]
    dsimp only
    rw [hf]
    simp only [List.foldl_cons, List.foldl_nil]
    rw [processField_suppressed st now t
      (canonPairs (Namespace.toUrlParameters p.ns)) (canonPairs p.tags)
      p.measurement [] fk v hmem hcached hser hidx hglob]
    rw [if_neg (by simp)]
    dsimp only
    rw [if_neg (by simp)]
  rw [hcall]
  refine ⟨rfl, rfl, ?_, ?_⟩
  · dsimp only
    rw [dictGet_append, dictGet_dictDelete_self hwfe]
    simp [dictGet]
  · dsimp only
    simp

/-- Witness for claim C10 at a concrete filter state and point. -/
theorem filter_refreshes_lru_on_suppressed_duplicate_witness :
    ((FilterState.mk 1000000 10 10
        [(⟨[("namespace", "n")], "m", [], "f"⟩, [(5, FieldValue.int 7)])]
        [((⟨[("namespace", "n")], "m", [], "f"⟩, 5), 100)]).writePoints
      [⟨Namespace.v3 "n", "m", some 5, [], [("f", FieldValue.int 7)]⟩]
      200).2 = none :=
  (filter_refreshes_lru_on_suppressed_duplicate
    (FilterState.mk 1000000 10 10
      [(⟨[("namespace", "n")], "m", [], "f"⟩, [(5, FieldValue.int 7)])]
      [((⟨[("namespace", "n")], "m", [], "f"⟩, 5), 100)])
    ⟨Namespace.v3 "n", "m", some 5, [], [("f", FieldValue.int 7)]⟩
    5 200 "f" (FieldValue.int 7) [(5, FieldValue.int 7)]
    rfl rfl (by simp [nodupKeys]) (by decide) (by decide) (by decide)
    (by decide) (by decide) (by decide)).1

/-! ## Background transmitter (`eniris/telemessage/writer/background.py`),
claim C1 -/

/-- Wrapper around a queued telemessage: creation time, process-unique
sub-identifier, scheduled transmission time and retry counter.  The heap
comparison (`__lt__`) uses `scheduledDt` only. -/
structure TelemessageWrapper where
  telemessage : Telemessage
  creationDt : Int
  subId : Nat
  scheduledDt : Int
  retryNr : Nat
deriving DecidableEq, Repr

instance : Inhabited TelemessageWrapper :=
  ⟨⟨⟨[], [], []⟩, 0, 0, 0, 0⟩⟩

/-- In-place list update at an index (CPython `heap[pos] = item`). -/
def listSet {α : Type} : List α → Nat → α → List α
  | [], _, _ => []
  | _ :: xs, 0, v => v :: xs
  | x :: xs, n + 1, v => x :: listSet xs n v

/-- List read at an index with a default (CPython `heap[pos]`; positions are
always in bounds in the sift). -/
def listGet {α : Type} [Inhabited α] : List α → Nat → α
  | [], _ => default
  | x :: _, 0 => x
  | _ :: xs, n + 1 => listGet xs n

/-- CPython `heapq._siftdown`: bubble the new item up while it compares
below its parent; the wrapper order is `scheduledDt <`. -/
def siftdownLoop : Nat → List TelemessageWrapper → TelemessageWrapper →
    Nat → Nat → List TelemessageWrapper
  | 0, heap, newitem, _, pos => listSet heap pos newitem
  | fuel + 1, heap, newitem, startpos, pos =>
    if startpos < pos then
      let parentpos := (pos - 1) / 2
      let parent := listGet heap parentpos
      if newitem.scheduledDt < parent.scheduledDt then
        siftdownLoop fuel (listSet heap pos parent) newitem startpos parentpos
      else listSet heap pos newitem
    else listSet heap pos newitem

/-- CPython `heapq.heappush`. -/
def heappush (heap : List TelemessageWrapper) (item : TelemessageWrapper) :
    List TelemessageWrapper :=
  siftdownLoop (heap.length + 1) (heap ++ [item]) item 0 heap.length

/-- The retry-relevant state of a BackgroundTelemessageWriterDaemon: the
configuration, the `_pending_messages` heap, and the stray `_scheduledDt`
attribute that `__reschedule` creates on the daemon object. -/
structure DaemonState where
  maximumRetries : Nat
  initialRetryDelayS : Int
  maximumRetryDelayS : Int
  pendingMessages : List TelemessageWrapper
  scheduledDtAttr : Option Int
deriving DecidableEq, Repr

/-- BackgroundTelemessageWriterDaemon.__reschedule at clock reading `nowDt`.
The source computes `now + min(initialRetryDelayS * 2**retryNr,
maximumRetryDelayS)` but assigns it to `self._scheduledDt` — an attribute of
the daemon — rather than to `tmw._scheduledDt`; the wrapper is pushed back
onto the heap with its old scheduled time unchanged and only `retryNr`
incremented.  Beyond the cap, the message is dropped (not requeued). -/
def DaemonState.reschedule (st : DaemonState) (_reason : String)
    (tmw : TelemessageWrapper) (nowDt : Int) : DaemonState :=
  if tmw.retryNr + 1 ≤ st.maximumRetries then
    let st2 := { st with
      scheduledDtAttr := some (nowDt
        + min (st.initialRetryDelayS * 2 ^ tmw.retryNr)
            st.maximumRetryDelayS) }
    let tmw2 := { tmw with retryNr := tmw.retryNr + 1 }
    { st2 with pendingMessages := heappush st2.pendingMessages tmw2 }
  else st

/-! ## retryRequest (`eniris/driver.py`) -/

/-- Outcome of one HTTP attempt: a response, or a timeout, or a connection
error. -/
inductive HttpOutcome where
  | response (status : Nat) (text : String)
  | timeout
  | connectionError
deriving DecidableEq, Repr

/-- The exception `retryRequest` re-raises after exhausting its retries. -/
inductive ReqError where
  | timeout
  | connectionError
deriving DecidableEq, Repr

/-- Fuel-indexed body of `retryRequest`.  The `send` oracle gives the outcome
of attempt number `retryNr`; the result also counts the attempts performed.
The fuel-0 branch is unreachable: the caller passes
`maximumRetries + 1 - retryNr` and each recursion is guarded by
`retryNr + 1 <= maximumRetries`. -/
def retryRequestAux (send : Nat → HttpOutcome) (retryStatusCodes : List Nat)
    (maximumRetries : Nat) :
    Nat → Nat → Except ReqError (Nat × String) × Nat
  | 0, _ => (.error .timeout, 0)
  | fuel + 1, retryNr =>
    match send retryNr with
    | .timeout =>
      if retryNr + 1 ≤ maximumRetries then
        let r := retryRequestAux send retryStatusCodes maximumRetries fuel
          (retryNr + 1)
        (r.1, r.2 + 1)
      else (.error .timeout, 1)
    | .connectionError =>
      if retryNr + 1 ≤ maximumRetries then
        let r := retryRequestAux send retryStatusCodes maximumRetries fuel
          (retryNr + 1)
        (r.1, r.2 + 1)
      else (.error .connectionError, 1)
    | .response status text =>
      if status ∈ retryStatusCodes ∧ retryNr + 1 ≤ maximumRetries then
        let r := retryRequestAux send retryStatusCodes maximumRetries fuel
          (retryNr + 1)
        (r.1, r.2 + 1)
      else (.ok (status, text), 1)

/-- driver.retryRequest: POST (or GET) with retries on timeout, connection
error, and retry-eligible status codes, sleeping between attempts (time is
not modelled); after exhaustion the last exception is raised or the last
response returned. -/
def retryRequest (send : Nat → HttpOutcome) (maximumRetries : Nat)
    (retryStatusCodes : List Nat) (retryNr : Nat) :
    Except ReqError (Nat × String) × Nat :=
  retryRequestAux send retryStatusCodes maximumRetries
    (maximumRetries + 1 - retryNr) retryNr

/-! ## Synchronous transmitter (`eniris/telemessage/writer/direct.py`),
claim C5 -/

inductive DirectWriteError where
  | attributeError (attr : String)
  | unexpectedResponse (code : Nat) (text : String)
  | timeout
  | connectionError
deriving DecidableEq, Repr

/-- Attribute access `message.lines`.  The Telemessage dataclass defines only
`parameters`, `data` and `headers` (an earlier revision had `lines`, which
`toJson`'s docstring still mentions), so the lookup fails for every
instance. -/
def Telemessage.linesAttr (_ : Telemessage) : Option (List (List UInt8)) :=
  none

/-- DirectTelemessageWriter.writeTelemessage: build the POST body as
`b"\n".join(message.lines)` and send it through `retryRequest`; on a 204
return normally, otherwise raise DirectTelemessageWriterUnexpectedResponse
with the response status and body.  Exhausted timeouts and connection errors
propagate.  Since `message.lines` does not exist, every call raises
AttributeError before any request is made. -/
def DirectTelemessageWriter.writeTelemessage (maximumRetries : Nat)
    (retryStatusCodes : List Nat) (message : Telemessage)
    (send : Nat → HttpOutcome) : Except DirectWriteError Unit :=
  match Telemessage.linesAttr message with
  | none => .error (.attributeError "lines")
  | some dataLines =>
    let _body := pyJoinBytes [10] dataLines
    match (retryRequest send maximumRetries retryStatusCodes 0).1 with
    | .ok (status, text) =>
      if status ≠ 204 then .error (.unexpectedResponse status text)
      else .ok ()
    | .error .timeout => .error .timeout
    | .error .connectionError => .error .connectionError

/-! ## Auth driver (`eniris/driver.py`), claim C9 -/

/-- The token-cache state of an ApiDriver (clock readings in seconds). -/
structure ApiDriverState where
  authUrl : String
  maximumRetries : Nat
  retryStatusCodes : List Nat
  refreshDtAndToken : Option (Int × String)
  accessDtAndToken : Option (Int × String)
deriving DecidableEq, Repr

inductive CloseOutcome where
  | ok
  | authenticationFailure (text : String)
  | connectionError
deriving DecidableEq, Repr

/-- ApiDriver.close at clock reading `nowS`, with the logout POST's outcome
per attempt given by `send`.  Returns the new state, the outcome, and the
list of URLs POSTed (empty means no HTTP request was performed).  The
`authorizationHeaderFunction=self.refreshtoken` callback only affects the
request headers and is modelled as pure. -/
def ApiDriver.close (st : ApiDriverState) (nowS : Int)
    (send : Nat → HttpOutcome) :
    ApiDriverState × CloseOutcome × List String :=
  match st.refreshDtAndToken with
  | none => (st, .ok, [])
  | some (refreshDt, _token) =>
    if nowS - refreshDt > 14 * 24 * 60 * 60 then (st, .ok, [])
    else
      let r := retryRequest send st.maximumRetries st.retryStatusCodes 0
      let log := List.replicate r.2 (st.authUrl ++ "/auth/logout")
      match r.1 with
      | .ok (status, text) =>
        if status = 204 ∨ status = 401 then
          ({ st with refreshDtAndToken := none, accessDtAndToken := none },
            .ok, log)
        else (st, .authenticationFailure text, log)
      | .error .timeout =>
        (st, .authenticationFailure "the API did not respond in time", log)
      | .error .connectionError => (st, .connectionError, log)

lemma retryRequestAux_pos (send : Nat → HttpOutcome)
    (retryStatusCodes : List Nat) (maximumRetries fuel retryNr : Nat) :
    1 ≤ (retryRequestAux send retryStatusCodes maximumRetries (fuel + 1)
      retryNr).2 := by
  unfold retryRequestAux
  cases hs : send retryNr <;> dsimp only <;> split <;> dsimp only <;> omega

/-- C1: the reschedule operation of the background transmitter does not set
the wrapper's scheduled transmission time.  When `retryNr + 1 ≤ maxRetries`
it assigns the backoff time `now + min(initialRetryDelayS * 2^retryNr,
maximumRetryDelayS)` to a stray attribute of the daemon object and pushes the
wrapper back onto the heap with only `retryNr` incremented and `scheduledDt`
unchanged; beyond the cap the message is dropped.  Concretely, a wrapper with
scheduled time 100 and retryNr 0, rescheduled at time 1000 (delays 1 s/60 s),
re-enters the heap still scheduled at 100 instead of
1000 + min(1 * 2^0, 60) = 1001. -/
theorem reschedule_updates_daemon_attribute_not_wrapper
    (st : DaemonState) (reason : String) (tmw : TelemessageWrapper)
    (nowDt : Int) :
    (tmw.retryNr + 1 ≤ st.maximumRetries →
      DaemonState.reschedule st reason tmw nowDt
        = { st with
            scheduledDtAttr := some (nowDt
              + min (st.initialRetryDelayS * 2 ^ tmw.retryNr)
                  st.maximumRetryDelayS),
            pendingMessages :=
              heappush st.pendingMessages
                { tmw with retryNr := tmw.retryNr + 1 } })
    ∧ (st.maximumRetries < tmw.retryNr + 1 →
      DaemonState.reschedule st reason tmw nowDt = st)
    ∧ ({ tmw with retryNr := tmw.retryNr + 1 } :
        TelemessageWrapper).scheduledDt = tmw.scheduledDt
    ∧ ((DaemonState.mk 4 1 60 [] none).reschedule "timeout"
        ⟨⟨[], [], []⟩, 100, 7, 100, 0⟩ 1000).pendingMessages.map
          (fun w => (w.scheduledDt, w.retryNr)) = [(100, 1)]
    ∧ ((DaemonState.mk 4 1 60 [] none).reschedule "timeout"
        ⟨⟨[], [], []⟩, 100, 7, 100, 0⟩ 1000).scheduledDtAttr = some 1001
    ∧ (100 : Int) ≠ 1000 + min ((1 : Int) * 2 ^ (0 : Nat)) 60 := by
  refine ⟨?_, ?_, rfl, by decide, by decide, by decide⟩
  · intro h
    unfold DaemonState.reschedule
    rw [if_pos h]
  · intro h
    unfold DaemonState.reschedule
    rw [if_neg (by omega)]

/-- C1 witness. -/
theorem reschedule_updates_daemon_attribute_not_wrapper_witness :
    (DaemonState.mk 4 1 60 [] none).reschedule "r"
        ⟨⟨[], [], []⟩, 100, 7, 100, 0⟩ 1000
      = { DaemonState.mk 4 1 60 [] none with
          scheduledDtAttr := some (1000 + min ((1 : Int) * 2 ^ (0 : Nat)) 60),
          pendingMessages := heappush []
            { (⟨⟨[], [], []⟩, 100, 7, 100, 0⟩ : TelemessageWrapper) with
              retryNr := 0 + 1 } }
    ∧ (DaemonState.mk 4 1 60 [] none).reschedule "r"
        ⟨⟨[], [], []⟩, 100, 7, 100, 5⟩ 1000
      = DaemonState.mk 4 1 60 [] none :=
  ⟨(reschedule_updates_daemon_attribute_not_wrapper
      (DaemonState.mk 4 1 60 [] none) "r" ⟨⟨[], [], []⟩, 100, 7, 100, 0⟩
      1000).1 (by decide),
    (reschedule_updates_daemon_attribute_not_wrapper
      (DaemonState.mk 4 1 60 [] none) "r" ⟨⟨[], [], []⟩, 100, 7, 100, 5⟩
      1000).2.1 (by decide)⟩

/-- C5: the synchronous transmitter never transmits anything.  Its
writeTelemessage reads `message.lines`, an attribute the Telemessage
dataclass does not define (its payload lives in `data`), so every call
fails with AttributeError before any request is made and in particular
never returns normally, for every configuration, message and server
behaviour. -/
theorem directWriter_always_attributeError (maximumRetries : Nat)
    (retryStatusCodes : List Nat) (message : Telemessage)
    (send : Nat → HttpOutcome) :
    DirectTelemessageWriter.writeTelemessage maximumRetries retryStatusCodes
        message send = .error (.attributeError "lines")
    ∧ DirectTelemessageWriter.writeTelemessage maximumRetries
        retryStatusCodes message send ≠ .ok () :=
  ⟨rfl, by
    unfold DirectTelemessageWriter.writeTelemessage Telemessage.linesAttr
    dsimp only
    exact fun h => Except.noConfusion h⟩

/-- C9: ApiDriver.close performs no HTTP request and returns when the cached
refresh token is unset or older than 14 days; otherwise it POSTs
`{authUrl}/auth/logout` (at least one attempt, `n` attempts in total), and on
response status 204 or 401 clears both the refresh and the access token and
returns normally, while any other status raises AuthenticationFailure with
the response body. -/
theorem apiDriver_close_spec (st : ApiDriverState) (nowS : Int)
    (send : Nat → HttpOutcome) (refreshDt : Int) (token : String)
    (status : Nat) (text : String) (n : Nat) :
    (st.refreshDtAndToken = none →
      ApiDriver.close st nowS send = (st, .ok, []))
    ∧ (st.refreshDtAndToken = some (refreshDt, token) →
        nowS - refreshDt > 14 * 24 * 60 * 60 →
        ApiDriver.close st nowS send = (st, .ok, []))
    ∧ (st.refreshDtAndToken = some (refreshDt, token) →
        ¬ nowS - refreshDt > 14 * 24 * 60 * 60 →
        retryRequest send st.maximumRetries st.retryStatusCodes 0
          = (.ok (status, text), n) →
        ((status = 204 ∨ status = 401 →
            ApiDriver.close st nowS send
              = ({ st with
                    refreshDtAndToken := none,
                    accessDtAndToken := none }, .ok,
                  List.replicate n (st.authUrl ++ "/auth/logout")))
          ∧ (¬ (status = 204 ∨ status = 401) →
              ApiDriver.close st nowS send
                = (st, .authenticationFailure text,
                    List.replicate n (st.authUrl ++ "/auth/logout")))))
    ∧ 1 ≤ (retryRequest send st.maximumRetries st.retryStatusCodes 0).2 := by
  refine ⟨?_, ?_, ?_, ?_⟩
  · intro h
    unfold ApiDriver.close
    rw [h]
  · intro h hgt
    unfold ApiDriver.close
    rw [h]
    dsimp only
    rw [if_pos hgt]
  · intro h hle hrr
    constructor
    · intro hst
      unfold ApiDriver.close
      rw [h]
      dsimp only
      rw [if_neg hle, hrr]
      dsimp only
      rw [if_pos hst]
    · intro hst
      unfold ApiDriver.close
      rw [h]
      dsimp only
      rw [if_neg hle, hrr]
      dsimp only
      rw [if_neg hst]
  · exact retryRequestAux_pos send st.retryStatusCodes st.maximumRetries
      st.maximumRetries 0

/-- C9 witness. -/
theorem apiDriver_close_spec_witness :
    ApiDriver.close
        ⟨"https://authentication.eniris.be/v1", 2, [429, 500, 503],
          some (0, "tok"), some (0, "acc")⟩ 10 (fun _ => .response 204 "")
      = (⟨"https://authentication.eniris.be/v1", 2, [429, 500, 503],
            none, none⟩, .ok,
          ["https://authentication.eniris.be/v1/auth/logout"])
    ∧ ApiDriver.close
        ⟨"https://authentication.eniris.be/v1", 2, [429, 500, 503],
          some (0, "tok"), some (0, "acc")⟩ 10 (fun _ => .response 500 "oops")
      ≠ (⟨"https://authentication.eniris.be/v1", 2, [429, 500, 503],
            some (0, "tok"), some (0, "acc")⟩, .ok, []) := by
  constructor
  · exact ((apiDriver_close_spec
        ⟨"https://authentication.eniris.be/v1", 2, [429, 500, 503],
          some (0, "tok"), some (0, "acc")⟩ 10 (fun _ => .response 204 "")
        0 "tok" 204 "" 1).2.2.1 rfl (by decide) rfl).1 (by decide)
  · have h := ((apiDriver_close_spec
        ⟨"https://authentication.eniris.be/v1", 2, [429, 500, 503],
          some (0, "tok"), some (0, "acc")⟩ 10 (fun _ => .response 500 "oops")
        0 "tok" 500 "oops" 3).2.2.1 rfl (by decide) rfl).2 (by decide)
    rw [h]
    decide

end Eniris
